import Mathlib

/-!
Verification of the minegauler core against its specification.

This file gives a shallow embedding of the algorithmic core of the
minegauler repository:

* `src/minegauler/shared/utils.py` — the `Grid` class (a Python list of
  lists): indexing with Python list semantics (negative indices wrap),
  and `get_nbrs`.
* `src/minegauler/core/minefield.py` — the `Minefield` class: random
  mine placement (`_choose_mine_coords`, `check_enough_space`), the
  completed board (`_calc_completed_board`), openings
  (`_find_openings`) and the 3bv metric (`_calc_3bv`).
* `src/minegauler/core/api.py` — the listener fan-out
  (`Caller._call_registered`).

Randomness is modelled by explicit parameters: `popIdx` stands for the
result of `rnd.randint(0, len - 1)` and the shuffled pool `sh` stands
for the result of `rnd.shuffle`; theorems constrain `sh` to be a
permutation of the pool, and `popIdx` to be in range, which is exactly
the contract of the random primitives.  Python's `set.pop` (an
arbitrary element) is resolved deterministically by scanning the
canonical cell enumeration; all results proved below are about the
resulting sets of cells and do not depend on this choice.

The classes `Board`, `Grid` (core variant) and the cell-contents types
`CellNum`/`CellFlag` imported by `minefield.py` are not present under
`src/`; the cell-contents type is modelled from the spec (§3,
`CellContents`), and the core `Grid` services used by `Minefield`
(`all_coords`, `get_nbrs`, per-cell integer storage) follow the `Grid`
class of `src/minegauler/shared/utils.py` and spec §4.1.
-/

/-- A cell coordinate `(x, y)`. -/
abbrev Coord := Nat × Nat

namespace Minegauler

/-- `Grid.all_coords = [(x, y) for x in range(x_size) for y in range(y_size)]`
(`src/minegauler/shared/utils.py:130`): x-major enumeration, which is
lexicographically sorted. -/
def allCoords (xsz ysz : Nat) : List Coord :=
  (List.range xsz).flatMap (fun x => (List.range ysz).map (fun y => (x, y)))

/-- `Grid.get_nbrs` (`src/minegauler/shared/utils.py:193`): the 3x3 block
around `c` clipped to the grid, built x-major by nested `range` loops;
the origin is removed (`nbrs.remove((x, y))`, first occurrence) unless
`incOrig` is set.  Python `range(a, b)` is `List.range' a (b - a)`, and
`max 0 (x - 1)` is truncated subtraction on `Nat`. -/
def getNbrs (xsz ysz : Nat) (c : Coord) (incOrig : Bool) : List Coord :=
  let block :=
    (List.range' (c.1 - 1) (min xsz (c.1 + 2) - (c.1 - 1))).flatMap
      (fun i => (List.range' (c.2 - 1) (min ysz (c.2 + 2) - (c.2 - 1))).map
        (fun j => (i, j)))
  if incOrig then block else block.erase c

/-! ## The `Grid` class of `src/minegauler/shared/utils.py`

A `Grid` is a Python `list` of row lists.  `__getitem__((x, y))`
evaluates `self[y][x]`, two plain Python list indexings: a negative
index `i` with `-len ≤ i` wraps to `len + i`, and any other
out-of-range index raises `IndexError` (modelled as `none`). -/

structure PyGrid (α : Type) where
  x_size : Nat
  y_size : Nat
  rows : List (List α)

/-- Python list indexing `l[i]`: wraps negative indices, fails out of range
(`l.get? n = none` whenever `n` is past the end). -/
def pyIndex {α : Type} (l : List α) (i : Int) : Option α :=
  let j : Int := if i < 0 then i + l.length else i
  if 0 ≤ j then l.get? j.toNat else none

/-- Python list element assignment `l[i] = v`: same index semantics as
`pyIndex`; fails out of range, otherwise replaces the element. -/
def pySetIdx {α : Type} (l : List α) (i : Int) (v : α) : Option (List α) :=
  let j : Int := if i < 0 then i + l.length else i
  if 0 ≤ j ∧ j < (l.length : Int) then some (l.set j.toNat v) else none

/-- `Grid.__getitem__` with a coordinate key: `self[key[1]][key[0]]`
(`src/minegauler/shared/utils.py:170`). -/
def PyGrid.getCoord {α : Type} (g : PyGrid α) (x y : Int) : Option α :=
  match pyIndex g.rows y with
  | none => none
  | some row => pyIndex row x

/-- `Grid.__setitem__` with a coordinate key: `self[key[1]][key[0]] = value`
(`src/minegauler/shared/utils.py:176`): fetch the row, mutate the cell,
which mutates the row stored in the grid. -/
def PyGrid.setCoord {α : Type} (g : PyGrid α) (x y : Int) (v : α) :
    Option (PyGrid α) :=
  match pyIndex g.rows y with
  | none => none
  | some row =>
    match pySetIdx row x v with
    | none => none
    | some row2 =>
      match pySetIdx g.rows y row2 with
      | none => none
      | some rows2 => some ⟨g.x_size, g.y_size, rows2⟩

/-- `Grid.__init__` (`src/minegauler/shared/utils.py:115`): `y_size` rows
of `x_size` copies of `fill`. -/
def mkPyGrid {α : Type} (xsz ysz : Nat) (fill : α) : PyGrid α :=
  ⟨xsz, ysz, List.replicate ysz (List.replicate xsz fill)⟩

/-- A grid as produced by `Grid.__init__`: the row list matches the
declared dimensions. -/
def PyGrid.WF {α : Type} (g : PyGrid α) : Prop :=
  g.rows.length = g.y_size ∧ ∀ row ∈ g.rows, row.length = g.x_size

/-- `Grid.get_nbrs` as a method (`src/minegauler/shared/utils.py:193`). -/
def PyGrid.get_nbrs {α : Type} (g : PyGrid α) (x y : Nat) (incOrig : Bool) :
    List Coord :=
  getNbrs g.x_size g.y_size (x, y) incOrig

/-! ## Cell contents

Modelled from the spec: the tagged variant `CellContents` (spec §3) —
the concrete classes `CellNum`/`CellFlag`/`CellMine`… are imported by
`minefield.py` from `minegauler.types`, which is not under `src/`.
`CellNum n` is `Num(n)`, `CellFlag n` is `Flag(n)`, and so on. -/

inductive CellContents where
  | Unclicked : CellContents
  | Num : Nat → CellContents
  | Flag : Nat → CellContents
  | Mine : Nat → CellContents
  | HitMine : Nat → CellContents
  | WrongFlag : Nat → CellContents
deriving DecidableEq, Repr

/-- `CellNum.__add__` with an integer: `Num n + m = Num (n + m)`.  In
`_calc_completed_board` it is only ever applied to `Num` cells (cells
without mines stay `Num`); other variants are returned unchanged. -/
def cellAdd : CellContents → Nat → CellContents
  | CellContents.Num n, m => CellContents.Num (n + m)
  | c, _ => c

/-! ## The `Minefield` class (`src/minegauler/core/minefield.py`) -/

/-- The state of a constructed `Minefield`: dimensions, the per-cell
maximum, the stored `nr_mines` and `mine_coords`, and the grid of
per-cell mine counts (the superclass `Grid` storage after the
placement loop of `__init__`). -/
structure Minefield where
  x_size : Nat
  y_size : Nat
  per_cell : Nat
  nr_mines : Nat
  mine_coords : List Coord
  grid : Coord → Nat

instance : Inhabited Minefield := ⟨⟨0, 0, 0, 0, [], fun _ => 0⟩⟩

/-- Error message of `check_enough_space` (`minefield.py:181`),
interpolated values omitted. -/
def capacityMsg : String := "Number of mines too high"

/-- Error raised by `rnd.randint(0, -1)` when the candidate pool is empty. -/
def randintMsg : String := "empty range for randrange"

/-- Error message of the placement loop (`minefield.py:84`),
interpolated values omitted. -/
def tooManyMsg : String := "Too many mines at coord"

/-- `Minefield.check_enough_space` (`minefield.py:159`): raises
`ValueError` when `mines > (x_size * y_size - nr_safe_cells) * per_cell`.
Python subtraction can go negative, hence the `Int` arithmetic. -/
def check_enough_space (xsz ysz mines pc nrSafe : Nat) : Except String Unit :=
  if (mines : Int) > (((xsz * ysz : Nat) : Int) - (nrSafe : Int)) * (pc : Int) then
    Except.error capacityMsg
  else Except.ok ()

/-- `len(set(safe_coords)) if safe_coords else 1` (`minefield.py:144`):
`None` and the empty list are both falsy in Python. -/
def nrSafeCells (safe : Option (List Coord)) : Nat :=
  match safe with
  | none => 1
  | some [] => 1
  | some sc => sc.dedup.length

/-- Python `list * n`: `n` concatenated copies. -/
def pyListMul {α : Type} (l : List α) (n : Nat) : List α :=
  (List.replicate n l).flatten

/-- The candidate pool of `_choose_mine_coords` (`minefield.py:147`):
all grid cells, minus the safe coordinates when `safe_coords is not None`;
when nothing was removed, one cell at the random index `popIdx` is
popped (`rnd.randint` raises on an empty pool); the result is
replicated `per_cell` times.  The subsequent `rnd.shuffle` is modelled
by quantifying over permutations of this pool. -/
def minePool (xsz ysz pc : Nat) (safe : Option (List Coord)) (popIdx : Nat) :
    Except String (List Coord) :=
  let all := allCoords xsz ysz
  let avble :=
    match safe with
    | none => all
    | some sc => all.filter (fun c => decide (c ∉ sc))
  if avble.length = all.length then
    if avble.length = 0 then Except.error randintMsg
    else Except.ok (pyListMul (avble.eraseIdx popIdx) pc)
  else Except.ok (pyListMul avble pc)

/-- The mine-placement loop of `Minefield.__init__` (`minefield.py:82`):
`for c in mine_coords: if self[c] == per_cell: raise; self[c] += 1`. -/
def placeMines (pc : Nat) (g : Coord → Nat) : List Coord → Except String (Coord → Nat)
  | [] => Except.ok g
  | c :: rest =>
    if g c = pc then Except.error tooManyMsg
    else placeMines pc (fun d => if d = c then g d + 1 else g d) rest

/-- `Minefield.__init__` with an integer `mines` argument: capacity
check, random pool (`popIdx` models `rnd.randint`), shuffled pool `sh`
(models `rnd.shuffle`; theorems require `sh` to be a permutation of the
pool), then the placement loop on the first `mines` entries. -/
def mkMinefieldNum (xsz ysz mines pc : Nat) (safe : Option (List Coord))
    (popIdx : Nat) (sh : List Coord) : Except String Minefield :=
  match check_enough_space xsz ysz mines pc (nrSafeCells safe) with
  | Except.error e => Except.error e
  | Except.ok _ =>
    match minePool xsz ysz pc safe popIdx with
    | Except.error e => Except.error e
    | Except.ok _pool =>
      let mcs := sh.take mines
      match placeMines pc (fun _ => 0) mcs with
      | Except.error e => Except.error e
      | Except.ok g => Except.ok ⟨xsz, ysz, pc, mines, mcs, g⟩

/-- `Minefield.from_grid` (`minefield.py:97`): flatten a grid of mine
counts into a coordinate list (each cell repeated by its count, in
`all_coords` order) and run `__init__` with that explicit list: the
capacity check is skipped, `nr_mines = len(mine_coords)`, and only the
per-cell bound is enforced by the placement loop. -/
def mkMinefieldFromGrid (xsz ysz : Nat) (cnt : Coord → Nat) (pc : Nat) :
    Except String Minefield :=
  let mcs := (allCoords xsz ysz).flatMap (fun c => List.replicate (cnt c) c)
  match placeMines pc (fun _ => 0) mcs with
  | Except.error e => Except.error e
  | Except.ok g => Except.ok ⟨xsz, ysz, pc, mcs.length, mcs, g⟩

/-- The body of the inner loop of `_calc_completed_board`
(`minefield.py:208`): `if not self.cell_contains_mine(nbr):
completed_board[nbr] += mines`. -/
def incrStep (grid : Coord → Nat) (m : Nat) (bb : Coord → CellContents)
    (nbr : Coord) : Coord → CellContents :=
  if grid nbr = 0 then
    fun d => if d = nbr then cellAdd (bb d) m else bb d
  else bb

/-- One iteration of the outer loop of `_calc_completed_board`
(`minefield.py:204`): if cell `c` holds mines, overwrite it with
`CellFlag(mines)` and add `mines` to every neighbouring cell that holds
no mine. -/
def boardStep (mf : Minefield) (b : Coord → CellContents) (c : Coord) :
    Coord → CellContents :=
  let m := mf.grid c
  if 0 < m then
    let b1 := fun d => if d = c then CellContents.Flag m else b d
    (getNbrs mf.x_size mf.y_size c false).foldl (incrStep mf.grid m) b1
  else b

/-- `Minefield._calc_completed_board` (`minefield.py:197`): a board
filled with `CellNum(0)`, then the loop above over `all_coords`. -/
def Minefield.completedBoard (mf : Minefield) : Coord → CellContents :=
  (allCoords mf.x_size mf.y_size).foldl (boardStep mf)
    (fun _ => CellContents.Num 0)

/-- Whether the completed board shows a zero at `c`
(`completed_board[c] == CellNum(0)`, `minefield.py:223`). -/
def Minefield.isZero (mf : Minefield) (c : Coord) : Bool :=
  decide (mf.completedBoard c = CellContents.Num 0)

/-- The deterministic resolution of Python's `set.pop`: the first cell
of the canonical enumeration that lies in the set (`none` iff the set
holds no grid cell). -/
def pickCoord (xsz ysz : Nat) (s : Finset Coord) : Option Coord :=
  (allCoords xsz ysz).find? (fun c => decide (c ∈ s))

/-- The inner `while check:` loop of `_find_openings` (`minefield.py:231`):
pop a coordinate, add the zero-valued new neighbours to `check`, add all
neighbours to `opening`.  Structural recursion on `fuel`; the callers
supply enough fuel for the loop to run to completion (proved below). -/
def floodLoop (xsz ysz : Nat) (z : Coord → Bool) :
    Nat → Finset Coord → Finset Coord → Finset Coord
  | 0, _, opening => opening
  | fuel + 1, check, opening =>
    match pickCoord xsz ysz check with
    | none => opening
    | some c =>
      let nbrs := (getNbrs xsz ysz c false).toFinset
      let newZeros := (nbrs \ opening).filter (fun d => z d = true)
      floodLoop xsz ysz z fuel ((check.erase c) ∪ newZeros) (opening ∪ nbrs)

/-- `sorted(opening)` (`minefield.py:238`): the canonical enumeration is
lexicographically sorted, so filtering it by membership yields the
sorted element list of any set of grid cells. -/
def sortOpening (xsz ysz : Nat) (s : Finset Coord) : List Coord :=
  (allCoords xsz ysz).filter (fun c => decide (c ∈ s))

/-- The outer `while blanks_to_check:` loop of `_find_openings`
(`minefield.py:225`): pop a blank, flood its opening, append it, drop
its cells from the blanks. -/
def openingsLoop (xsz ysz : Nat) (z : Coord → Bool) :
    Nat → Finset Coord → List (List Coord) → List (List Coord)
  | 0, _, acc => acc
  | fuel + 1, blanks, acc =>
    match pickCoord xsz ysz blanks with
    | none => acc
    | some orig =>
      let opening :=
        floodLoop xsz ysz z ((xsz * ysz + 1) * (xsz * ysz + 1)) {orig} {orig}
      openingsLoop xsz ysz z fuel (blanks \ opening)
        (acc ++ [sortOpening xsz ysz opening])

/-- `Minefield._find_openings` (`minefield.py:215`). -/
def Minefield.openings (mf : Minefield) : List (List Coord) :=
  let blanks := ((allCoords mf.x_size mf.y_size).filter
    (fun c => mf.isZero c)).toFinset
  openingsLoop mf.x_size mf.y_size mf.isZero (mf.x_size * mf.y_size + 1)
    blanks []

/-- `Minefield._calc_3bv` (`minefield.py:242`):
`len(openings) + x_size*y_size - len(set(mine_coords)) - len(⋃ openings)`
(Python integer arithmetic, hence `Int`). -/
def Minefield.bbbv (mf : Minefield) : Int :=
  (mf.openings.length : Int) +
    ((mf.x_size * mf.y_size : Nat) : Int) -
    (mf.mine_coords.dedup.length : Int) -
    ((mf.openings.flatten.dedup.length : Nat) : Int)

/-! ## Specification-side notions for openings -/

/-- One step between zero cells: `d` is a neighbour of `c` and shows
zero on the completed board. -/
def Minefield.zeroAdj (mf : Minefield) (c d : Coord) : Prop :=
  d ∈ getNbrs mf.x_size mf.y_size c false ∧
    mf.completedBoard d = CellContents.Num 0

/-- `zeroReach mf z c`: `c` lies in the 8-connected component of
zero-valued cells containing `z` (reflexive-transitive closure of
`zeroAdj`; for `z` a zero-valued grid cell this is exactly the maximal
8-connected set of zero cells containing `z`). -/
def Minefield.zeroReach (mf : Minefield) (z c : Coord) : Prop :=
  Relation.ReflTransGen mf.zeroAdj z c

/-- The list of available coordinates before pop and replication
(`avble_coords`, `minefield.py:148`). -/
def avbleCoords (xsz ysz : Nat) (safe : Option (List Coord)) : List Coord :=
  match safe with
  | none => allCoords xsz ysz
  | some sc => (allCoords xsz ysz).filter (fun c => decide (c ∉ sc))

/-- The board after `_calc_completed_board` has processed the cells of
`L`: mined processed cells show their flag, mine-free cells show the
mines accumulated from processed neighbours, unprocessed mined cells
still show the initial zero. -/
def partialBoard (mf : Minefield) (L : List Coord) : Coord → CellContents :=
  fun d =>
    if 0 < mf.grid d ∧ d ∈ L then CellContents.Flag (mf.grid d)
    else if mf.grid d = 0 then
      CellContents.Num
        (((L.filter (fun c =>
            decide (d ∈ getNbrs mf.x_size mf.y_size c false))).map mf.grid).sum)
    else CellContents.Num 0

/-- One step between zero cells (generic form of `Minefield.zeroAdj`). -/
def zAdj (xsz ysz : Nat) (z : Coord → Bool) (a b : Coord) : Prop :=
  b ∈ getNbrs xsz ysz a false ∧ z b = true

/-- Connected component reachability between zero cells. -/
def zReach (xsz ysz : Nat) (z : Coord → Bool) (a b : Coord) : Prop :=
  Relation.ReflTransGen (zAdj xsz ysz z) a b

/-- The target set of the flood fill started at `orig`: the connected
component of `orig` together with all neighbours of its cells. -/
def openTarget (xsz ysz : Nat) (z : Coord → Bool) (orig c : Coord) : Prop :=
  zReach xsz ysz z orig c ∨
    ∃ d, zReach xsz ysz z orig d ∧ c ∈ getNbrs xsz ysz d false

/-- Invariant of the inner flood loop, with ghost set `P` of processed
(popped) coordinates. -/
def FloodInv (xsz ysz : Nat) (z : Coord → Bool) (orig : Coord)
    (P check opening : Finset Coord) : Prop :=
  orig ∈ P ∪ check ∧
  (∀ c ∈ P ∪ check, zReach xsz ysz z orig c) ∧
  opening = insert orig
    (P.biUnion (fun c => (getNbrs xsz ysz c false).toFinset)) ∧
  (∀ c ∈ opening, z c = true → c ∈ P ∪ check) ∧
  (∀ c ∈ P ∪ check, c ∈ opening)

/-- `O` is the opening generated by the blank cell `orig`: the sorted
element list of the component of `orig` together with its neighbours. -/
def IsOpeningOf (xsz ysz : Nat) (z : Coord → Bool) (orig : Coord)
    (O : List Coord) : Prop :=
  orig ∈ allCoords xsz ysz ∧ z orig = true ∧
  ∃ R : Finset Coord, O = sortOpening xsz ysz R ∧
    ∀ c, (c ∈ R ↔ openTarget xsz ysz z orig c)

/-- The link between the grid of counts and `mine_coords` that both
constructors establish. -/
def Minefield.Consistent (mf : Minefield) : Prop :=
  (∀ c, mf.grid c = mf.mine_coords.count c) ∧
    (∀ c ∈ mf.mine_coords, c ∈ allCoords mf.x_size mf.y_size)

/-! ## Listener fan-out (`src/minegauler/core/api.py`)

`Caller._call_registered` wraps each notification method: it calls the
method on every registered listener in registration order; if the call
raises, the exception is caught, logged, and the listener's
`handle_exception` is invoked — itself unprotected, so an exception
from `handle_exception` propagates and aborts the loop.  A listener is
modelled by the outcomes of its two methods; the fan-out returns the
trace of calls made and the uncaught exception, if any. -/

structure Listener (ε : Type) where
  deliver : String → Except ε Unit
  handleExc : String → ε → Except ε Unit

inductive FanEvent (ε : Type) where
  | notify : Nat → Option ε → FanEvent ε
  | excHandled : Nat → String → ε → FanEvent ε
deriving DecidableEq

/-- The `for listener in self._listeners:` loop of `_call_registered`
(`api.py:163`), with `i` the index of the first listener.
`FanEvent.notify i o` records that listener `i` received the call
(`o = some e` when the call raised `e`); `FanEvent.excHandled` records
a completed `handle_exception` call. -/
def callRegistered {ε : Type} (method : String) :
    List (Listener ε) → Nat → List (FanEvent ε) × Option ε
  | [], _ => ([], none)
  | l :: rest, i =>
    match l.deliver method with
    | Except.ok _ =>
      let r := callRegistered method rest (i + 1)
      (FanEvent.notify i none :: r.1, r.2)
    | Except.error e =>
      match l.handleExc method e with
      | Except.ok _ =>
        let r := callRegistered method rest (i + 1)
        (FanEvent.notify i (some e) :: FanEvent.excHandled i method e :: r.1,
          r.2)
      | Except.error e2 => ([FanEvent.notify i (some e)], some e2)

/-- The index of a `notify` event. -/
def notifyIdx {ε : Type} : FanEvent ε → Option Nat
  | FanEvent.notify i _ => some i
  | FanEvent.excHandled _ _ _ => none

/-- A listener whose delivery and error hook both raise. -/
def lBad : Listener Nat :=
  ⟨fun _ => Except.error 0, fun _ _ => Except.error 1⟩

/-- A well-behaved listener. -/
def lGood : Listener Nat :=
  ⟨fun _ => Except.ok (), fun _ _ => Except.ok ()⟩

/-- Reference cell access: row `y`, column `x`, plain (non-wrapping)
indices. -/
def PyGrid.cellAt {α : Type} (g : PyGrid α) (x y : Nat) : Option α :=
  (g.rows.get? y).bind (fun row => row.get? x)

/-- Strict lexicographic order on coordinates: the order in which the
nested loops of `get_nbrs` (and `all_coords`) emit cells. -/
def lexLt (a b : Coord) : Prop :=
  a.1 < b.1 ∨ (a.1 = b.1 ∧ a.2 < b.2)

/-! ## Lemmas about `allCoords` and `getNbrs` -/

theorem mem_allCoords {xsz ysz : Nat} {c : Coord} :
    c ∈ allCoords xsz ysz ↔ c.1 < xsz ∧ c.2 < ysz := by
  rcases c with ⟨x, y⟩
  simp only [allCoords, List.mem_flatMap, List.mem_map, List.mem_range]
  constructor
  · rintro ⟨a, ha, b, hb, h⟩
    cases h
    exact ⟨ha, hb⟩
  · rintro ⟨hx, hy⟩
    exact ⟨x, hx, y, hy, rfl⟩

theorem allCoords_nodup (xsz ysz : Nat) : (allCoords xsz ysz).Nodup := by
  rw [allCoords, List.nodup_flatMap]
  constructor
  · intro x _
    exact (List.nodup_range ysz).map (fun a b h => by simpa using congrArg Prod.snd h)
  · refine List.Pairwise.imp ?_ (List.nodup_range xsz)
    intro a b hab
    simp only [Function.onFun, List.Disjoint]
    intro c hca hcb
    simp only [List.mem_map] at hca hcb
    obtain ⟨ya, _, rfl⟩ := hca
    obtain ⟨yb, _, h⟩ := hcb
    exact hab (by simpa using (congrArg Prod.fst h).symm)

theorem length_allCoords (xsz ysz : Nat) :
    (allCoords xsz ysz).length = xsz * ysz := by
  rw [allCoords, List.length_flatMap]
  simp only [Function.comp_def, List.length_map, List.length_range,
    List.map_const']
  simp [List.sum_replicate, smul_eq_mul, Nat.mul_comm]

/-- Membership in the full 3x3 block (`get_nbrs` with `include_origin`). -/
theorem mem_getNbrs_true {xsz ysz : Nat} {c d : Coord} :
    d ∈ getNbrs xsz ysz c true ↔
      d.1 < xsz ∧ d.2 < ysz ∧ c.1 ≤ d.1 + 1 ∧ d.1 ≤ c.1 + 1 ∧
        c.2 ≤ d.2 + 1 ∧ d.2 ≤ c.2 + 1 := by
  rcases c with ⟨x, y⟩
  rcases d with ⟨i, j⟩
  simp only [getNbrs, if_pos, List.mem_flatMap, List.mem_map, List.mem_range'_1]
  constructor
  · rintro ⟨a, ⟨ha1, ha2⟩, b, ⟨hb1, hb2⟩, h⟩
    cases h
    refine ⟨by omega, by omega, by omega, by omega, by omega, by omega⟩
  · rintro ⟨h1, h2, h3, h4, h5, h6⟩
    exact ⟨i, by omega, j, by omega, rfl⟩

theorem getNbrs_block_nodup (xsz ysz : Nat) (c : Coord) :
    (getNbrs xsz ysz c true).Nodup := by
  rw [getNbrs, if_pos rfl, List.nodup_flatMap]
  constructor
  · intro x _
    exact (List.nodup_range' _ _).map (fun a b h => by simpa using congrArg Prod.snd h)
  · refine List.Pairwise.imp ?_ (List.nodup_range' _ _)
    intro a b hab
    simp only [Function.onFun, List.Disjoint]
    intro e hea heb
    simp only [List.mem_map] at hea heb
    obtain ⟨ya, _, rfl⟩ := hea
    obtain ⟨yb, _, h⟩ := heb
    exact hab (by simpa using (congrArg Prod.fst h).symm)

theorem getNbrs_false_eq_erase (xsz ysz : Nat) (c : Coord) :
    getNbrs xsz ysz c false = (getNbrs xsz ysz c true).erase c := by
  simp [getNbrs]

/-- Characterization of `get_nbrs` without the origin: the in-bounds
cells at Chebyshev distance exactly one. -/
theorem mem_getNbrs_false {xsz ysz : Nat} {c d : Coord} :
    d ∈ getNbrs xsz ysz c false ↔
      d.1 < xsz ∧ d.2 < ysz ∧ c.1 ≤ d.1 + 1 ∧ d.1 ≤ c.1 + 1 ∧
        c.2 ≤ d.2 + 1 ∧ d.2 ≤ c.2 + 1 ∧ d ≠ c := by
  rw [getNbrs_false_eq_erase,
    (getNbrs_block_nodup xsz ysz c).mem_erase_iff, mem_getNbrs_true]
  tauto

theorem getNbrs_mem_allCoords {xsz ysz : Nat} {c d : Coord} {io : Bool}
    (h : d ∈ getNbrs xsz ysz c io) : d ∈ allCoords xsz ysz := by
  rw [mem_allCoords]
  cases io
  · rw [mem_getNbrs_false] at h
    exact ⟨h.1, h.2.1⟩
  · rw [mem_getNbrs_true] at h
    exact ⟨h.1, h.2.1⟩

theorem not_mem_getNbrs_self (xsz ysz : Nat) (c : Coord) :
    c ∉ getNbrs xsz ysz c false := by
  rw [mem_getNbrs_false]
  simp

/-- Symmetry of neighbourhood for in-bounds cells. -/
theorem getNbrs_symm {xsz ysz : Nat} {c d : Coord}
    (hc : c.1 < xsz ∧ c.2 < ysz) (hd : d.1 < xsz ∧ d.2 < ysz) :
    d ∈ getNbrs xsz ysz c false ↔ c ∈ getNbrs xsz ysz d false := by
  rw [mem_getNbrs_false, mem_getNbrs_false]
  constructor
  · rintro ⟨_, _, h3, h4, h5, h6, h7⟩
    refine ⟨hc.1, hc.2, by omega, by omega, by omega, by omega, ?_⟩
    intro h
    exact h7 h.symm
  · rintro ⟨_, _, h3, h4, h5, h6, h7⟩
    refine ⟨hd.1, hd.2, by omega, by omega, by omega, by omega, ?_⟩
    intro h
    exact h7 h.symm

theorem getNbrs_nodup (xsz ysz : Nat) (c : Coord) (io : Bool) :
    (getNbrs xsz ysz c io).Nodup := by
  cases io
  · rw [getNbrs_false_eq_erase]
    exact (getNbrs_block_nodup xsz ysz c).erase c
  · exact getNbrs_block_nodup xsz ysz c

/-! ## Lemmas about the placement loop and the candidate pool -/

theorem placeMines_ok_grid {pc : Nat} :
    ∀ {l : List Coord} {g g2 : Coord → Nat},
      placeMines pc g l = Except.ok g2 → ∀ c, g2 c = g c + l.count c := by
  intro l
  induction l with
  | nil =>
    intro g g2 h c
    simp only [placeMines] at h
    cases h
    simp
  | cons a rest ih =>
    intro g g2 h c
    simp only [placeMines] at h
    split at h
    · cases h
    · have hc := ih h c
      by_cases hca : c = a
      · subst hca
        rw [List.count_cons_self, hc, if_pos rfl]
        omega
      · rw [List.count_cons_of_ne hca, hc, if_neg hca]

theorem placeMines_ok_le {pc : Nat} :
    ∀ {l : List Coord} {g g2 : Coord → Nat},
      placeMines pc g l = Except.ok g2 → (∀ c, g c ≤ pc) → ∀ c, g2 c ≤ pc := by
  intro l
  induction l with
  | nil =>
    intro g g2 h hg c
    simp only [placeMines] at h
    cases h
    exact hg c
  | cons a rest ih =>
    intro g g2 h hg c
    simp only [placeMines] at h
    split at h
    · cases h
    · rename_i hne
      refine ih h ?_ c
      intro d
      by_cases hda : d = a
      · subst hda
        have h1 := hg d
        rw [if_pos rfl]
        omega
      · rw [if_neg hda]
        exact hg d

theorem count_pyListMul {α : Type} [BEq α] (l : List α) (n : Nat)
    (c : α) : (pyListMul l n).count c = n * l.count c := by
  induction n with
  | zero => simp [pyListMul]
  | succ k ih =>
    simp only [pyListMul, List.replicate_succ, List.flatten_cons,
      List.count_append]
    rw [show (List.replicate k l).flatten = pyListMul l k from rfl, ih]
    ring

theorem mem_pyListMul {α : Type} {l : List α} {n : Nat} {c : α} :
    c ∈ pyListMul l n ↔ 0 < n ∧ c ∈ l := by
  induction n with
  | zero => simp [pyListMul]
  | succ k ih =>
    simp only [pyListMul, List.replicate_succ, List.flatten_cons,
      List.mem_append]
    rw [show (List.replicate k l).flatten = pyListMul l k from rfl]
    rw [ih]
    constructor
    · rintro (h | ⟨_, h⟩) <;> exact ⟨Nat.succ_pos k, h⟩
    · rintro ⟨_, h⟩
      exact Or.inl h

theorem length_pyListMul {α : Type} (l : List α) (n : Nat) :
    (pyListMul l n).length = n * l.length := by
  induction n with
  | zero => simp [pyListMul]
  | succ k ih =>
    simp only [pyListMul, List.replicate_succ, List.flatten_cons,
      List.length_append]
    rw [show (List.replicate k l).flatten = pyListMul l k from rfl, ih]
    ring

/-- Removing an index from a duplicate-free list loses an element. -/
theorem exists_not_mem_eraseIdx {α : Type} :
    ∀ (l : List α) (i : Nat), i < l.length → l.Nodup →
      ∃ e ∈ l, e ∉ l.eraseIdx i := by
  intro l
  induction l with
  | nil => intro i h; simp at h
  | cons a rest ih =>
    intro i h hnd
    cases i with
    | zero =>
      exact ⟨a, List.mem_cons_self a rest, by
        simpa using (List.nodup_cons.mp hnd).1⟩
    | succ k =>
      obtain ⟨e, he, hne⟩ := ih k (by simpa using h) (List.nodup_cons.mp hnd).2
      refine ⟨e, List.mem_cons_of_mem a he, ?_⟩
      simp only [List.eraseIdx_cons_succ, List.mem_cons]
      rintro (rfl | hmem)
      · exact (List.nodup_cons.mp hnd).1 he
      · exact hne hmem

theorem eraseIdx_subset {α : Type} (l : List α) (i : Nat) :
    ∀ c ∈ l.eraseIdx i, c ∈ l :=
  fun _ hc => (List.eraseIdx_sublist l i).mem hc

theorem nodup_eraseIdx {α : Type} {l : List α} (i : Nat) (h : l.Nodup) :
    (l.eraseIdx i).Nodup :=
  (List.eraseIdx_sublist l i).nodup h

theorem minePool_eq (xsz ysz pc : Nat) (safe : Option (List Coord))
    (popIdx : Nat) :
    minePool xsz ysz pc safe popIdx =
      if (avbleCoords xsz ysz safe).length = (allCoords xsz ysz).length then
        if (avbleCoords xsz ysz safe).length = 0 then Except.error randintMsg
        else Except.ok (pyListMul ((avbleCoords xsz ysz safe).eraseIdx popIdx) pc)
      else Except.ok (pyListMul (avbleCoords xsz ysz safe) pc) := by
  rcases safe with _ | sc <;> rfl

theorem avbleCoords_nodup (xsz ysz : Nat) (safe : Option (List Coord)) :
    (avbleCoords xsz ysz safe).Nodup := by
  rcases safe with _ | sc
  · exact allCoords_nodup xsz ysz
  · exact (allCoords_nodup xsz ysz).filter _

theorem avbleCoords_subset (xsz ysz : Nat) (safe : Option (List Coord)) :
    ∀ c ∈ avbleCoords xsz ysz safe, c ∈ allCoords xsz ysz := by
  rcases safe with _ | sc
  · exact fun c hc => hc
  · exact fun c hc => (List.mem_filter.mp hc).1

/-- On success the pool is one of the two replicated lists. -/
theorem minePool_ok_cases {xsz ysz pc : Nat} {safe : Option (List Coord)}
    {popIdx : Nat} {pool : List Coord}
    (h : minePool xsz ysz pc safe popIdx = Except.ok pool) :
    (∃ base : List Coord, pool = pyListMul base pc ∧ base.Nodup ∧
      (∀ c ∈ base, c ∈ allCoords xsz ysz)) := by
  rw [minePool_eq] at h
  split at h
  · split at h
    · cases h
    · cases h
      exact ⟨_, rfl, nodup_eraseIdx _ (avbleCoords_nodup xsz ysz safe),
        fun c hc => avbleCoords_subset xsz ysz safe c (eraseIdx_subset _ _ c hc)⟩
  · cases h
    exact ⟨_, rfl, avbleCoords_nodup xsz ysz safe,
      avbleCoords_subset xsz ysz safe⟩

/-- Every pool element is a grid cell. -/
theorem minePool_subset {xsz ysz pc : Nat} {safe : Option (List Coord)}
    {popIdx : Nat} {pool : List Coord}
    (h : minePool xsz ysz pc safe popIdx = Except.ok pool) :
    ∀ c ∈ pool, c ∈ allCoords xsz ysz := by
  obtain ⟨base, rfl, _, hsub⟩ := minePool_ok_cases h
  intro c hc
  exact hsub c (mem_pyListMul.mp hc).2

theorem nodup_count_le_one {α : Type} [BEq α] [LawfulBEq α] {l : List α}
    (hnd : l.Nodup) (c : α) : l.count c ≤ 1 := by
  induction l with
  | nil => simp
  | cons a rest ih =>
    have h2 := List.nodup_cons.mp hnd
    by_cases hca : c = a
    · subst hca
      rw [List.count_cons_self, List.count_eq_zero.mpr h2.1]
    · rw [List.count_cons_of_ne hca]
      exact ih h2.2

/-- Each coordinate occurs at most `per_cell` times in the pool. -/
theorem minePool_count_le {xsz ysz pc : Nat} {safe : Option (List Coord)}
    {popIdx : Nat} {pool : List Coord}
    (h : minePool xsz ysz pc safe popIdx = Except.ok pool) :
    ∀ c, pool.count c ≤ pc := by
  obtain ⟨base, rfl, hnd, _⟩ := minePool_ok_cases h
  intro c
  rw [count_pyListMul]
  have h1 : base.count c ≤ 1 := nodup_count_le_one hnd c
  calc pc * base.count c ≤ pc * 1 := Nat.mul_le_mul_left pc h1
  _ = pc := Nat.mul_one pc

/-- Safe coordinates never enter the pool. -/
theorem minePool_safe_not_mem {xsz ysz pc : Nat} {sc : List Coord}
    {popIdx : Nat} {pool : List Coord}
    (h : minePool xsz ysz pc (some sc) popIdx = Except.ok pool) :
    ∀ c ∈ sc, c ∉ pool := by
  intro c hcsc hcpool
  rw [minePool_eq] at h
  have hfil : ∀ d ∈ avbleCoords xsz ysz (some sc), d ∉ sc := by
    intro d hd
    simpa using (List.mem_filter.mp hd).2
  split at h
  · split at h
    · cases h
    · cases h
      exact hfil c (eraseIdx_subset _ _ c (mem_pyListMul.mp hcpool).2) hcsc
  · cases h
    exact hfil c (mem_pyListMul.mp hcpool).2 hcsc

theorem one_le_nrSafeCells (safe : Option (List Coord)) :
    1 ≤ nrSafeCells safe := by
  rcases safe with _ | sc
  · exact le_refl 1
  · rcases sc with _ | ⟨a, sc⟩
    · exact le_refl 1
    · have : a ∈ (a :: sc).dedup := by
        rw [List.mem_dedup]
        exact List.mem_cons_self a sc
      simpa [nrSafeCells] using List.length_pos.mpr (List.ne_nil_of_mem this)

theorem length_filter_split {α : Type} (l : List α) (p : α → Bool) :
    (l.filter p).length + (l.filter (fun a => !(p a))).length = l.length := by
  induction l with
  | nil => simp
  | cons a l ih =>
    by_cases hp : p a = true
    · simp [List.filter_cons, hp]
      omega
    · simp only [Bool.not_eq_true] at hp
      simp [List.filter_cons, hp]
      omega

theorem avbleCoords_length_ge (xsz ysz : Nat) (safe : Option (List Coord)) :
    ((xsz * ysz : Nat) : Int) - (nrSafeCells safe : Int) ≤
      ((avbleCoords xsz ysz safe).length : Int) := by
  rcases safe with _ | sc
  · simp only [avbleCoords, length_allCoords, nrSafeCells]
    omega
  · have hsplit :
        ((allCoords xsz ysz).filter (fun c => decide (c ∉ sc))).length +
          ((allCoords xsz ysz).filter (fun c => !decide (c ∉ sc))).length =
          (allCoords xsz ysz).length := by
      exact length_filter_split (allCoords xsz ysz) _
    have hsub : ((allCoords xsz ysz).filter
        (fun c => !decide (c ∉ sc))).length ≤ sc.dedup.length := by
      have hnd : ((allCoords xsz ysz).filter
          (fun c => !decide (c ∉ sc))).Nodup := (allCoords_nodup xsz ysz).filter _
      have hss : ((allCoords xsz ysz).filter
          (fun c => !decide (c ∉ sc))).toFinset ⊆ sc.dedup.toFinset := by
        intro c hc
        rw [List.mem_toFinset] at hc ⊢
        rw [List.mem_dedup]
        have := (List.mem_filter.mp hc).2
        simpa using this
      have hcard := Finset.card_le_card hss
      rwa [List.card_toFinset, List.card_toFinset, List.dedup_eq_self.mpr hnd,
        List.dedup_eq_self.mpr (List.nodup_dedup sc)] at hcard
    rcases sc with _ | ⟨a, sc⟩
    · simp only [avbleCoords, nrSafeCells]
      have : ((allCoords xsz ysz).filter
          (fun c => decide (c ∉ ([] : List Coord)))).length =
          (allCoords xsz ysz).length := by
        rw [List.filter_length_eq_length]
        intro c _
        simp
      rw [this, length_allCoords]
      omega
    · simp only [avbleCoords, nrSafeCells]
      rw [length_allCoords] at hsplit
      omega

/-- When the capacity check passes, the replicated pool holds at least
`mines` entries. -/
theorem minePool_length_ge {xsz ysz mines pc : Nat} {safe : Option (List Coord)}
    {popIdx : Nat} {pool : List Coord}
    (hchk : check_enough_space xsz ysz mines pc (nrSafeCells safe) =
      Except.ok ())
    (h : minePool xsz ysz pc safe popIdx = Except.ok pool) :
    mines ≤ pool.length := by
  have hcap : (mines : Int) ≤
      (((xsz * ysz : Nat) : Int) - (nrSafeCells safe : Int)) * (pc : Int) := by
    rw [check_enough_space] at hchk
    split at hchk
    · cases hchk
    · omega
  have hone := one_le_nrSafeCells safe
  rw [minePool_eq] at h
  split at h
  · split at h
    · cases h
    · cases h
      rename_i hlen hne
      have hbound : ((xsz * ysz : Nat) : Int) - (nrSafeCells safe : Int) ≤
          (((avbleCoords xsz ysz safe).eraseIdx popIdx).length : Int) := by
        rw [List.length_eraseIdx, hlen, length_allCoords]
        split <;> push_cast <;> omega
      have hlen2 : (mines : Int) ≤
          ((pyListMul ((avbleCoords xsz ysz safe).eraseIdx popIdx) pc).length
            : Int) := by
        rw [length_pyListMul]
        push_cast
        calc (mines : Int) ≤ _ * (pc : Int) := hcap
        _ ≤ (((avbleCoords xsz ysz safe).eraseIdx popIdx).length : Int) *
            (pc : Int) := by
          apply mul_le_mul_of_nonneg_right hbound
          positivity
        _ = (pc : Int) * (((avbleCoords xsz ysz safe).eraseIdx popIdx).length
            : Int) := by ring
      exact_mod_cast hlen2
  · cases h
    have hbound := avbleCoords_length_ge xsz ysz safe
    have hlen2 : (mines : Int) ≤
        ((pyListMul (avbleCoords xsz ysz safe) pc).length : Int) := by
      rw [length_pyListMul]
      push_cast
      calc (mines : Int) ≤ _ * (pc : Int) := hcap
      _ ≤ ((avbleCoords xsz ysz safe).length : Int) * (pc : Int) := by
        apply mul_le_mul_of_nonneg_right hbound
        positivity
      _ = (pc : Int) * ((avbleCoords xsz ysz safe).length : Int) := by ring
    exact_mod_cast hlen2

/-- With no (or an empty list of) safe coordinates and an in-range pop
index, one grid cell is kept out of the pool. -/
theorem minePool_none_missing {xsz ysz pc popIdx : Nat}
    {safe : Option (List Coord)} {pool : List Coord}
    (hsafe : safe = none ∨ safe = some ([] : List Coord))
    (hpop : popIdx < xsz * ysz)
    (h : minePool xsz ysz pc safe popIdx = Except.ok pool) :
    ∃ e ∈ allCoords xsz ysz, e ∉ pool := by
  have havble : avbleCoords xsz ysz safe = allCoords xsz ysz := by
    rcases hsafe with rfl | rfl
    · rfl
    · simp only [avbleCoords]
      rw [List.filter_eq_self]
      intro c _
      simp
  rw [minePool_eq, havble] at h
  rw [if_pos rfl] at h
  split at h
  · cases h
  · cases h
    obtain ⟨e, he, hne⟩ := exists_not_mem_eraseIdx (allCoords xsz ysz) popIdx
      (by rwa [length_allCoords]) (allCoords_nodup xsz ysz)
    refine ⟨e, he, fun hmem => hne (mem_pyListMul.mp hmem).2⟩

/-! ## Sums of counts -/

theorem sum_map_add_distrib {α : Type} (L : List α) (f g : α → Nat) :
    (L.map (fun c => f c + g c)).sum = (L.map f).sum + (L.map g).sum := by
  induction L with
  | nil => simp
  | cons a L ih =>
    simp only [List.map_cons, List.sum_cons, ih]
    omega

theorem sum_map_indicator_zero {α : Type} [DecidableEq α] {L : List α} {a : α}
    (ha : a ∉ L) : (L.map (fun c => if c = a then 1 else 0)).sum = 0 := by
  induction L with
  | nil => simp
  | cons b L ih =>
    have hba : b ≠ a := fun hba => ha (hba ▸ List.mem_cons_self b L)
    rw [List.map_cons, List.sum_cons, if_neg hba,
      ih (fun hm => ha (List.mem_cons_of_mem b hm))]

theorem sum_map_indicator_one {α : Type} [DecidableEq α] {L : List α} {a : α}
    (hnd : L.Nodup) (ha : a ∈ L) :
    (L.map (fun c => if c = a then 1 else 0)).sum = 1 := by
  induction L with
  | nil => cases ha
  | cons b L ih =>
    have h2 := List.nodup_cons.mp hnd
    by_cases hba : b = a
    · subst hba
      rw [List.map_cons, List.sum_cons, if_pos rfl, sum_map_indicator_zero h2.1]
    · rcases List.mem_cons.mp ha with rfl | hm
      · exact absurd rfl hba
      · rw [List.map_cons, List.sum_cons, if_neg hba, ih h2.2 hm]

/-- Summing the multiplicities of `m` over a duplicate-free list
containing all of `m` gives the length of `m`. -/
theorem sum_map_count_eq_length {α : Type} [BEq α] [LawfulBEq α]
    [DecidableEq α] (L : List α) (hnd : L.Nodup) :
    ∀ (m : List α), (∀ c ∈ m, c ∈ L) →
      (L.map (fun c => m.count c)).sum = m.length := by
  intro m
  induction m with
  | nil => intro _; simp
  | cons a m ih =>
    intro hsub
    have hpt : ∀ c, (a :: m).count c = m.count c + (if c = a then 1 else 0) := by
      intro c
      by_cases hca : c = a
      · subst hca
        rw [List.count_cons_self, if_pos rfl]
      · rw [List.count_cons_of_ne hca, if_neg hca]
        omega
    calc (L.map (fun c => (a :: m).count c)).sum
        = (L.map (fun c => m.count c + (if c = a then 1 else 0))).sum := by
          exact congrArg List.sum (List.map_congr_left (fun c _ => hpt c))
      _ = (L.map (fun c => m.count c)).sum +
          (L.map (fun c => if c = a then 1 else 0)).sum :=
          sum_map_add_distrib L _ _
      _ = m.length + 1 := by
          rw [ih (fun c hc => hsub c (List.mem_cons_of_mem a hc)),
            sum_map_indicator_one hnd (hsub a (List.mem_cons_self a m))]
      _ = (a :: m).length := by simp

/-! ## The completed board -/

theorem incrFold_spec (grid : Coord → Nat) (m : Nat) :
    ∀ (N : List Coord), N.Nodup → ∀ (b : Coord → CellContents) (d : Coord),
      (N.foldl (incrStep grid m) b) d =
        if d ∈ N ∧ grid d = 0 then cellAdd (b d) m else b d := by
  intro N
  induction N with
  | nil =>
    intro _ b d
    simp
  | cons n N ih =>
    intro hnd b d
    have h2 := List.nodup_cons.mp hnd
    rw [List.foldl_cons, ih h2.2]
    by_cases hdN : d ∈ N
    · have hdn : d ≠ n := fun h => h2.1 (h ▸ hdN)
      by_cases hz : grid d = 0
      · rw [if_pos ⟨hdN, hz⟩, if_pos ⟨List.mem_cons_of_mem n hdN, hz⟩]
        rw [incrStep]
        split
        · simp [if_neg hdn]
        · rfl
      · rw [if_neg (fun h => hz h.2), if_neg (fun h => hz h.2)]
        rw [incrStep]
        split
        · simp [if_neg hdn]
        · rfl
    · rw [if_neg (fun h => hdN h.1)]
      by_cases hdn : d = n
      · subst hdn
        by_cases hz : grid d = 0
        · rw [if_pos ⟨List.mem_cons_self d N, hz⟩, incrStep, if_pos hz,
            if_pos rfl]
        · rw [if_neg (fun h => hz h.2), incrStep, if_neg hz]
      · rw [if_neg (fun h => (List.mem_cons.mp h.1).elim hdn (fun hm => hdN hm))]
        rw [incrStep]
        split
        · simp [if_neg hdn]
        · rfl

theorem boardStep_partial (mf : Minefield) (L : List Coord) (c : Coord)
    (hcL : c ∉ L) :
    boardStep mf (partialBoard mf L) c = partialBoard mf (L ++ [c]) := by
  funext d
  have hfilter : ∀ d : Coord,
      (L ++ [c]).filter (fun e =>
          decide (d ∈ getNbrs mf.x_size mf.y_size e false)) =
        L.filter (fun e => decide (d ∈ getNbrs mf.x_size mf.y_size e false)) ++
          (if d ∈ getNbrs mf.x_size mf.y_size c false then [c] else []) := by
    intro d
    rw [List.filter_append]
    congr 1
    by_cases hd : d ∈ getNbrs mf.x_size mf.y_size c false
    · simp [hd]
    · simp [hd]
  by_cases hm : 0 < mf.grid c
  · rw [boardStep]
    simp only [if_pos hm]
    rw [incrFold_spec mf.grid (mf.grid c) _ (getNbrs_nodup mf.x_size mf.y_size c false)]
    by_cases hdc : d = c
    · subst hdc
      rw [if_neg (fun h => not_mem_getNbrs_self mf.x_size mf.y_size d h.1),
        if_pos rfl]
      rw [partialBoard]
      rw [if_pos ⟨hm, by simp⟩]
    · rw [if_neg hdc]
      by_cases hin : d ∈ getNbrs mf.x_size mf.y_size c false ∧ mf.grid d = 0
      · rw [if_pos hin]
        rw [partialBoard, partialBoard]
        rw [if_neg (fun h => by omega), if_pos hin.2,
          if_neg (fun h => by omega), if_pos hin.2]
        rw [hfilter d, if_pos hin.1]
        rw [List.map_append, List.sum_append]
        simp [cellAdd]
      · rw [if_neg hin]
        rw [partialBoard, partialBoard]
        by_cases hflag : 0 < mf.grid d ∧ d ∈ L
        · rw [if_pos hflag, if_pos ⟨hflag.1, List.mem_append_left _ hflag.2⟩]
        · have hflag2 : ¬ (0 < mf.grid d ∧ d ∈ L ++ [c]) := by
            rintro ⟨hpos, hmem⟩
            rcases List.mem_append.mp hmem with h | h
            · exact hflag ⟨hpos, h⟩
            · simp at h
              exact hdc h
          rw [if_neg hflag, if_neg hflag2]
          by_cases hz : mf.grid d = 0
          · rw [if_pos hz, if_pos hz]
            have hdnb : d ∉ getNbrs mf.x_size mf.y_size c false :=
              fun h => hin ⟨h, hz⟩
            rw [hfilter d, if_neg hdnb, List.append_nil]
          · rw [if_neg hz, if_neg hz]
  · rw [boardStep]
    simp only [if_neg hm]
    rw [partialBoard, partialBoard]
    have hgc : mf.grid c = 0 := by omega
    by_cases hflag : 0 < mf.grid d ∧ d ∈ L
    · rw [if_pos hflag, if_pos ⟨hflag.1, List.mem_append_left _ hflag.2⟩]
    · have hflag2 : ¬ (0 < mf.grid d ∧ d ∈ L ++ [c]) := by
        rintro ⟨hpos, hmem⟩
        rcases List.mem_append.mp hmem with h | h
        · exact hflag ⟨hpos, h⟩
        · simp at h
          subst h
          omega
      rw [if_neg hflag, if_neg hflag2]
      by_cases hz : mf.grid d = 0
      · rw [if_pos hz, if_pos hz]
        rw [hfilter d]
        by_cases hdnb : d ∈ getNbrs mf.x_size mf.y_size c false
        · rw [if_pos hdnb, List.map_append, List.sum_append]
          simp [hgc]
        · rw [if_neg hdnb, List.append_nil]
      · rw [if_neg hz, if_neg hz]

theorem foldl_boardStep_partial (mf : Minefield) :
    ∀ (L : List Coord), L.Nodup →
      L.foldl (boardStep mf) (fun _ => CellContents.Num 0) =
        partialBoard mf L := by
  intro L
  induction L using List.reverseRecOn with
  | nil =>
    intro _
    funext d
    rw [partialBoard]
    simp
  | append_singleton L c ih =>
    intro hnd
    have hnd2 := hnd
    rw [List.nodup_append] at hnd2
    rw [List.foldl_append, List.foldl_cons, List.foldl_nil,
      ih hnd2.1, boardStep_partial]
    exact fun hcL => hnd2.2.2 hcL (by simp)

/-- `_calc_completed_board`, characterised: a mined cell shows
`CellFlag(count)`, a mine-free cell shows `CellNum` of the total mines
in its neighbourhood. -/
theorem completedBoard_spec (mf : Minefield) (c : Coord)
    (hc : c ∈ allCoords mf.x_size mf.y_size) :
    (0 < mf.grid c → mf.completedBoard c = CellContents.Flag (mf.grid c)) ∧
    (mf.grid c = 0 → mf.completedBoard c = CellContents.Num
      (((getNbrs mf.x_size mf.y_size c false).map mf.grid).sum)) := by
  have hpboard : mf.completedBoard =
      partialBoard mf (allCoords mf.x_size mf.y_size) :=
    foldl_boardStep_partial mf _ (allCoords_nodup mf.x_size mf.y_size)
  constructor
  · intro hpos
    rw [hpboard, partialBoard, if_pos ⟨hpos, hc⟩]
  · intro hz
    rw [hpboard, partialBoard, if_neg (fun h => by omega), if_pos hz]
    congr 1
    have hperm : ((allCoords mf.x_size mf.y_size).filter (fun e =>
        decide (c ∈ getNbrs mf.x_size mf.y_size e false))).Perm
        (getNbrs mf.x_size mf.y_size c false) := by
      apply List.perm_of_nodup_nodup_toFinset_eq
      · exact (allCoords_nodup mf.x_size mf.y_size).filter _
      · exact getNbrs_nodup mf.x_size mf.y_size c false
      · ext e
        rw [List.mem_toFinset, List.mem_toFinset, List.mem_filter]
        rw [mem_allCoords] at hc
        constructor
        · rintro ⟨he, hmem⟩
          rw [mem_allCoords] at he
          rw [decide_eq_true_iff] at hmem
          exact (getNbrs_symm he hc).mp hmem
        · intro he
          have hein := getNbrs_mem_allCoords he
          rw [mem_allCoords] at hein
          refine ⟨mem_allCoords.mpr hein, ?_⟩
          rw [decide_eq_true_iff]
          exact (getNbrs_symm hein hc).mpr he
    exact (hperm.map mf.grid).sum_eq

/-- On the completed board a zero cell holds no mine. -/
theorem grid_eq_zero_of_board_zero {mf : Minefield} {c : Coord}
    (hc : c ∈ allCoords mf.x_size mf.y_size)
    (hz : mf.completedBoard c = CellContents.Num 0) : mf.grid c = 0 := by
  by_contra hpos
  have := (completedBoard_spec mf c hc).1 (by omega)
  rw [this] at hz
  cases hz

/-- Neighbours of a zero cell hold no mines. -/
theorem nbr_grid_eq_zero_of_board_zero {mf : Minefield} {c d : Coord}
    (hc : c ∈ allCoords mf.x_size mf.y_size)
    (hz : mf.completedBoard c = CellContents.Num 0)
    (hd : d ∈ getNbrs mf.x_size mf.y_size c false) : mf.grid d = 0 := by
  have hgz := grid_eq_zero_of_board_zero hc hz
  have := (completedBoard_spec mf c hc).2 hgz
  rw [this] at hz
  have hsum : ((getNbrs mf.x_size mf.y_size c false).map mf.grid).sum = 0 := by
    simpa using hz
  have := (List.sum_eq_zero_iff).mp hsum (mf.grid d) (List.mem_map_of_mem mf.grid hd)
  exact this

/-! ## Flood fill: openings as connected components

Generic development over an arbitrary zero-test `z : Coord → Bool`
(instantiated with `Minefield.isZero`). -/

theorem pickCoord_some {xsz ysz : Nat} {s : Finset Coord} {c : Coord}
    (h : pickCoord xsz ysz s = some c) :
    c ∈ s ∧ c ∈ allCoords xsz ysz := by
  refine ⟨?_, List.mem_of_find?_eq_some h⟩
  have := List.find?_some h
  simpa using this

theorem pickCoord_none {xsz ysz : Nat} {s : Finset Coord}
    (h : pickCoord xsz ysz s = none)
    (hsub : ∀ c ∈ s, c ∈ allCoords xsz ysz) : s = ∅ := by
  rw [pickCoord, List.find?_eq_none] at h
  ext c
  simp only [Finset.not_mem_empty, iff_false]
  intro hc
  exact h c (hsub c hc) (by simpa using hc)

theorem zReach_props {xsz ysz : Nat} {z : Coord → Bool} {orig c : Coord}
    (horig : orig ∈ allCoords xsz ysz ∧ z orig = true)
    (h : zReach xsz ysz z orig c) :
    c ∈ allCoords xsz ysz ∧ z c = true := by
  induction h with
  | refl => exact horig
  | tail _ hadj ih =>
    exact ⟨getNbrs_mem_allCoords hadj.1, hadj.2⟩

theorem zAdj_symm {xsz ysz : Nat} {z : Coord → Bool} {a b : Coord}
    (ha : a ∈ allCoords xsz ysz ∧ z a = true)
    (h : zAdj xsz ysz z a b) : zAdj xsz ysz z b a := by
  have hb : b ∈ allCoords xsz ysz := getNbrs_mem_allCoords h.1
  rw [mem_allCoords] at hb
  have ha2 := ha.1
  rw [mem_allCoords] at ha2
  exact ⟨(getNbrs_symm ha2 hb).mp h.1, ha.2⟩

theorem zReach_symm {xsz ysz : Nat} {z : Coord → Bool} {orig c : Coord}
    (horig : orig ∈ allCoords xsz ysz ∧ z orig = true)
    (h : zReach xsz ysz z orig c) : zReach xsz ysz z c orig := by
  induction h with
  | refl => exact Relation.ReflTransGen.refl
  | tail hr hadj ih =>
    rename_i b d
    have hb := zReach_props horig hr
    exact Relation.ReflTransGen.trans
      (Relation.ReflTransGen.single (zAdj_symm hb hadj)) ih

/-- Points of one component generate the same component. -/
theorem zReach_congr {xsz ysz : Nat} {z : Coord → Bool} {orig w : Coord}
    (horig : orig ∈ allCoords xsz ysz ∧ z orig = true)
    (hw : zReach xsz ysz z orig w) :
    ∀ c, (zReach xsz ysz z w c ↔ zReach xsz ysz z orig c) := by
  intro c
  constructor
  · intro h
    exact Relation.ReflTransGen.trans hw h
  · intro h
    exact Relation.ReflTransGen.trans (zReach_symm horig hw) h

theorem floodInv_opening_subset {xsz ysz : Nat} {z : Coord → Bool}
    {orig : Coord} {P check opening : Finset Coord}
    (horig : orig ∈ allCoords xsz ysz ∧ z orig = true)
    (hinv : FloodInv xsz ysz z orig P check opening) :
    ∀ c ∈ opening, c ∈ allCoords xsz ysz := by
  intro c hc
  rw [hinv.2.2.1] at hc
  rcases Finset.mem_insert.mp hc with rfl | hc
  · exact horig.1
  · obtain ⟨d, _, hd⟩ := Finset.mem_biUnion.mp hc
    exact getNbrs_mem_allCoords (List.mem_toFinset.mp hd)

/-- With an empty worklist the invariant pins the opening down exactly. -/
theorem floodInv_final {xsz ysz : Nat} {z : Coord → Bool} {orig : Coord}
    {P opening : Finset Coord}
    (horig : orig ∈ allCoords xsz ysz ∧ z orig = true)
    (hinv : FloodInv xsz ysz z orig P ∅ opening) :
    ∀ c, c ∈ opening ↔ openTarget xsz ysz z orig c := by
  obtain ⟨hI1, hI2, hI3, hI4, hI5⟩ := hinv
  rw [Finset.union_empty] at hI1 hI2 hI5
  simp only [Finset.union_empty] at hI4
  have hPclosed : ∀ c, zReach xsz ysz z orig c → c ∈ P := by
    intro c h
    induction h with
    | refl => exact hI1
    | tail hr hadj ih =>
      rename_i b d
      have hd : d ∈ opening := by
        rw [hI3]
        exact Finset.mem_insert_of_mem
          (Finset.mem_biUnion.mpr ⟨b, ih, List.mem_toFinset.mpr hadj.1⟩)
      exact hI4 d hd hadj.2
  intro c
  constructor
  · intro hc
    rw [hI3] at hc
    rcases Finset.mem_insert.mp hc with rfl | hc
    · exact Or.inl Relation.ReflTransGen.refl
    · obtain ⟨d, hdP, hd⟩ := Finset.mem_biUnion.mp hc
      exact Or.inr ⟨d, hI2 d hdP, List.mem_toFinset.mp hd⟩
  · rintro (h | ⟨d, hd, hc⟩)
    · exact hI5 c (hPclosed c h)
    · rw [hI3]
      exact Finset.mem_insert_of_mem
        (Finset.mem_biUnion.mpr ⟨d, hPclosed d hd, List.mem_toFinset.mpr hc⟩)

theorem allF_card (xsz ysz : Nat) :
    (allCoords xsz ysz).toFinset.card = xsz * ysz := by
  rw [List.card_toFinset, List.dedup_eq_self.mpr (allCoords_nodup xsz ysz),
    length_allCoords]

theorem floodInv_step {xsz ysz : Nat} {z : Coord → Bool} {orig : Coord}
    {P check opening : Finset Coord}
    (hinv : FloodInv xsz ysz z orig P check opening) {c0 : Coord}
    (hc0 : c0 ∈ check) :
    FloodInv xsz ysz z orig (insert c0 P)
      ((check.erase c0) ∪
        (((getNbrs xsz ysz c0 false).toFinset \ opening).filter
          (fun d => z d = true)))
      (opening ∪ (getNbrs xsz ysz c0 false).toFinset) := by
  obtain ⟨hI1, hI2, hI3, hI4, hI5⟩ := hinv
  have hmoved : ∀ e, e ∈ P ∪ check → e ∈ (insert c0 P) ∪
      ((check.erase c0) ∪
        (((getNbrs xsz ysz c0 false).toFinset \ opening).filter
          (fun d => z d = true))) := by
    intro e he
    rcases Finset.mem_union.mp he with he | he
    · exact Finset.mem_union_left _ (Finset.mem_insert_of_mem he)
    · by_cases hec : e = c0
      · exact Finset.mem_union_left _ (hec ▸ Finset.mem_insert_self c0 P)
      · exact Finset.mem_union_right _
          (Finset.mem_union_left _ (Finset.mem_erase.mpr ⟨hec, he⟩))
  refine ⟨hmoved orig hI1, ?_, ?_, ?_, ?_⟩
  · intro c hc
    rcases Finset.mem_union.mp hc with hc | hc
    · rcases Finset.mem_insert.mp hc with rfl | hc
      · exact hI2 c (Finset.mem_union_right P hc0)
      · exact hI2 c (Finset.mem_union_left check hc)
    · rcases Finset.mem_union.mp hc with hc | hc
      · exact hI2 c (Finset.mem_union_right P (Finset.mem_of_mem_erase hc))
      · have hc2 := Finset.mem_filter.mp hc
        have hc3 := Finset.mem_sdiff.mp hc2.1
        refine Relation.ReflTransGen.tail
          (hI2 c0 (Finset.mem_union_right P hc0)) ?_
        exact ⟨List.mem_toFinset.mp hc3.1, hc2.2⟩
  · rw [hI3, Finset.biUnion_insert]
    ext e
    simp only [Finset.mem_union, Finset.mem_insert]
    tauto
  · intro e he hz
    rcases Finset.mem_union.mp he with he | he
    · exact hmoved e (hI4 e he hz)
    · by_cases heo : e ∈ opening
      · exact hmoved e (hI4 e heo hz)
      · exact Finset.mem_union_right _ (Finset.mem_union_right _
          (Finset.mem_filter.mpr ⟨Finset.mem_sdiff.mpr ⟨he, heo⟩, hz⟩))
  · intro e he
    rcases Finset.mem_union.mp he with he | he
    · rcases Finset.mem_insert.mp he with rfl | he
      · exact Finset.mem_union_left _ (hI5 e (Finset.mem_union_right P hc0))
      · exact Finset.mem_union_left _ (hI5 e (Finset.mem_union_left check he))
    · rcases Finset.mem_union.mp he with he | he
      · exact Finset.mem_union_left _
          (hI5 e (Finset.mem_union_right P (Finset.mem_of_mem_erase he)))
      · exact Finset.mem_union_right _
          (Finset.mem_sdiff.mp (Finset.mem_filter.mp he).1).1

theorem measure_arith {a b y c c2 B fuel : Nat}
    (h2 : a ≤ b) (h3 : b + B = y) (hc2 : c2 < B)
    (hfuel : y + c ≤ fuel + 1) : a + c2 ≤ fuel := by omega

/-- The flood loop, run with enough fuel from a state satisfying the
invariant, returns exactly the component of `orig` with its
neighbours. -/
theorem floodLoop_spec {xsz ysz : Nat} {z : Coord → Bool} {orig : Coord}
    (horig : orig ∈ allCoords xsz ysz ∧ z orig = true) :
    ∀ (fuel : Nat) (P check opening : Finset Coord),
      FloodInv xsz ysz z orig P check opening →
      ((allCoords xsz ysz).toFinset \ opening).card * (xsz * ysz + 1) +
        check.card ≤ fuel →
      ∀ c, (c ∈ floodLoop xsz ysz z fuel check opening ↔
        openTarget xsz ysz z orig c) := by
  intro fuel
  induction fuel with
  | zero =>
    intro P check opening hinv hfuel c
    have hchk : check = ∅ := Finset.card_eq_zero.mp (by omega)
    subst hchk
    exact floodInv_final horig hinv c
  | succ fuel ih =>
    intro P check opening hinv hfuel c
    have hchecksub : ∀ e ∈ check, e ∈ allCoords xsz ysz := by
      intro e he
      exact (zReach_props horig (hinv.2.1 e (Finset.mem_union_right P he))).1
    rw [floodLoop]
    cases hpick : pickCoord xsz ysz check with
    | none =>
      have hchk : check = ∅ := pickCoord_none hpick hchecksub
      subst hchk
      exact floodInv_final horig hinv c
    | some c0 =>
      have hc0 := (pickCoord_some hpick).1
      have hinv2 := floodInv_step hinv hc0
      refine ih (insert c0 P) _ _ hinv2 ?_ c
      -- fuel accounting
      have hopensub : ∀ e ∈ opening ∪ (getNbrs xsz ysz c0 false).toFinset,
          e ∈ (allCoords xsz ysz).toFinset := by
        intro e he
        rw [List.mem_toFinset]
        rcases Finset.mem_union.mp he with he | he
        · exact floodInv_opening_subset horig hinv e he
        · exact getNbrs_mem_allCoords (List.mem_toFinset.mp he)
      have hchk2 : ((check.erase c0) ∪
          (((getNbrs xsz ysz c0 false).toFinset \ opening).filter
            (fun d => z d = true))).card < xsz * ysz + 1 := by
        have hsub2 : ((check.erase c0) ∪
            (((getNbrs xsz ysz c0 false).toFinset \ opening).filter
              (fun d => z d = true))) ⊆ (allCoords xsz ysz).toFinset := by
          intro e he
          rcases Finset.mem_union.mp he with he | he
          · exact List.mem_toFinset.mpr (hchecksub e (Finset.mem_of_mem_erase he))
          · exact List.mem_toFinset.mpr (getNbrs_mem_allCoords
              (List.mem_toFinset.mp
                (Finset.mem_sdiff.mp (Finset.mem_filter.mp he).1).1))
        have := Finset.card_le_card hsub2
        rw [allF_card] at this
        omega
      by_cases hsub : (getNbrs xsz ysz c0 false).toFinset ⊆ opening
      · -- nothing new: the worklist strictly shrinks
        have hop : opening ∪ (getNbrs xsz ysz c0 false).toFinset = opening :=
          Finset.union_eq_left.mpr hsub
        have hnz : ((getNbrs xsz ysz c0 false).toFinset \ opening).filter
            (fun d => z d = true) = ∅ := by
          rw [Finset.sdiff_eq_empty_iff_subset.mpr hsub, Finset.filter_empty]
        rw [hop, hnz, Finset.union_empty, Finset.card_erase_of_mem hc0]
        have hpos : 0 < check.card := Finset.card_pos.mpr ⟨c0, hc0⟩
        omega
      · -- the opening strictly grows inside the grid
        obtain ⟨e, he, heo⟩ := Finset.not_subset.mp hsub
        have heA : e ∈ (allCoords xsz ysz).toFinset :=
          List.mem_toFinset.mpr (getNbrs_mem_allCoords (List.mem_toFinset.mp he))
        have hsdiff : (allCoords xsz ysz).toFinset \ (opening ∪ (getNbrs xsz ysz c0 false).toFinset) ⊆
            ((allCoords xsz ysz).toFinset \ opening).erase e := by
          intro x hx
          have hx2 := Finset.mem_sdiff.mp hx
          refine Finset.mem_erase.mpr ⟨?_, Finset.mem_sdiff.mpr
            ⟨hx2.1, fun hxo => hx2.2 (Finset.mem_union_left _ hxo)⟩⟩
          rintro rfl
          exact hx2.2 (Finset.mem_union_right _ he)
        have hmem : e ∈ (allCoords xsz ysz).toFinset \ opening :=
          Finset.mem_sdiff.mpr ⟨heA, heo⟩
        have hcard1 : ((allCoords xsz ysz).toFinset \ (opening ∪ (getNbrs xsz ysz c0 false).toFinset)).card ≤
            ((allCoords xsz ysz).toFinset \ opening).card - 1 := by
          have h1 := Finset.card_le_card hsdiff
          rwa [Finset.card_erase_of_mem hmem] at h1
        have hkpos : 1 ≤ ((allCoords xsz ysz).toFinset \ opening).card :=
          Finset.card_pos.mpr ⟨e, hmem⟩
        have harg1 : ((allCoords xsz ysz).toFinset \
              (opening ∪ (getNbrs xsz ysz c0 false).toFinset)).card *
              (xsz * ysz + 1) ≤
            (((allCoords xsz ysz).toFinset \ opening).card - 1) *
              (xsz * ysz + 1) :=
          Nat.mul_le_mul_right _ hcard1
        have hsucc : (((allCoords xsz ysz).toFinset \ opening).card - 1) + 1 =
            ((allCoords xsz ysz).toFinset \ opening).card :=
          Nat.succ_pred_eq_of_pos hkpos
        have harg2 : (((allCoords xsz ysz).toFinset \ opening).card - 1) *
              (xsz * ysz + 1) + (xsz * ysz + 1) =
            ((allCoords xsz ysz).toFinset \ opening).card * (xsz * ysz + 1) := by
          calc (((allCoords xsz ysz).toFinset \ opening).card - 1) *
                (xsz * ysz + 1) + (xsz * ysz + 1)
              = ((((allCoords xsz ysz).toFinset \ opening).card - 1) + 1) *
                (xsz * ysz + 1) := (Nat.succ_mul _ _).symm
            _ = ((allCoords xsz ysz).toFinset \ opening).card *
                (xsz * ysz + 1) := by rw [hsucc]
        exact measure_arith harg1 harg2 hchk2 hfuel

/-- Flood fill started from a single blank cell, with the fuel used by
`_find_openings`. -/
theorem flood_from_orig {xsz ysz : Nat} {z : Coord → Bool} {orig : Coord}
    (horig : orig ∈ allCoords xsz ysz ∧ z orig = true) :
    ∀ c, (c ∈ floodLoop xsz ysz z ((xsz * ysz + 1) * (xsz * ysz + 1))
        {orig} {orig} ↔ openTarget xsz ysz z orig c) := by
  have hinv : FloodInv xsz ysz z orig ∅ {orig} {orig} := by
    refine ⟨?_, ?_, ?_, ?_, ?_⟩
    · simp
    · intro c hc
      simp only [Finset.empty_union, Finset.mem_singleton] at hc
      subst hc
      exact Relation.ReflTransGen.refl
    · simp
    · intro c hc _
      simpa using hc
    · intro c hc
      simpa using hc
  refine floodLoop_spec horig _ ∅ {orig} {orig} hinv ?_
  have hsub : ((allCoords xsz ysz).toFinset \ {orig}).card ≤ xsz * ysz := by
    have h1 := Finset.card_le_card
      (Finset.sdiff_subset (s := (allCoords xsz ysz).toFinset) (t := {orig}))
    rwa [allF_card] at h1
  rw [Finset.card_singleton]
  calc ((allCoords xsz ysz).toFinset \ {orig}).card * (xsz * ysz + 1) + 1
      ≤ (xsz * ysz) * (xsz * ysz + 1) + 1 :=
        Nat.add_le_add_right (Nat.mul_le_mul_right _ hsub) 1
    _ ≤ (xsz * ysz) * (xsz * ysz + 1) + (xsz * ysz + 1) :=
        Nat.add_le_add_left (Nat.succ_le_succ (Nat.zero_le _)) _
    _ = (xsz * ysz + 1) * (xsz * ysz + 1) := (Nat.succ_mul _ _).symm

/-- A zero cell of the flood target belongs to the component. -/
theorem openTarget_zero_mem {xsz ysz : Nat} {z : Coord → Bool} {orig c : Coord}
    (horig : orig ∈ allCoords xsz ysz ∧ z orig = true)
    (hc : openTarget xsz ysz z orig c) (hz : z c = true) :
    zReach xsz ysz z orig c := by
  rcases hc with h | ⟨d, hd, hnb⟩
  · exact h
  · exact Relation.ReflTransGen.tail hd ⟨hnb, hz⟩

/-- All cells of the flood target are grid cells. -/
theorem openTarget_mem_allCoords {xsz ysz : Nat} {z : Coord → Bool}
    {orig c : Coord} (horig : orig ∈ allCoords xsz ysz ∧ z orig = true)
    (hc : openTarget xsz ysz z orig c) : c ∈ allCoords xsz ysz := by
  rcases hc with h | ⟨d, _, hnb⟩
  · exact (zReach_props horig h).1
  · exact getNbrs_mem_allCoords hnb

theorem mem_sortOpening {xsz ysz : Nat} {R : Finset Coord} {c : Coord} :
    c ∈ sortOpening xsz ysz R ↔ c ∈ allCoords xsz ysz ∧ c ∈ R := by
  rw [sortOpening, List.mem_filter]
  simp

/-- Membership in an opening coincides with membership in its set. -/
theorem isOpeningOf_mem {xsz ysz : Nat} {z : Coord → Bool} {orig : Coord}
    {O : List Coord} (h : IsOpeningOf xsz ysz z orig O) :
    ∀ c, (c ∈ O ↔ openTarget xsz ysz z orig c) := by
  obtain ⟨hb, hz, R, rfl, hR⟩ := h
  intro c
  rw [mem_sortOpening, hR]
  constructor
  · exact fun hc => hc.2
  · exact fun hc => ⟨openTarget_mem_allCoords ⟨hb, hz⟩ hc, hc⟩

/-- Two openings sharing a zero cell are equal. -/
theorem isOpeningOf_unique {xsz ysz : Nat} {z : Coord → Bool}
    {orig orig2 w : Coord} {O O2 : List Coord}
    (h : IsOpeningOf xsz ysz z orig O) (h2 : IsOpeningOf xsz ysz z orig2 O2)
    (hw : w ∈ O) (hw2 : w ∈ O2) (hwz : z w = true) : O = O2 := by
  obtain ⟨hb, hz, R, rfl, hR⟩ := h
  obtain ⟨hb2, hz2, R2, rfl, hR2⟩ := h2
  have hr1 : zReach xsz ysz z orig w :=
    openTarget_zero_mem ⟨hb, hz⟩ (hR w |>.mp (mem_sortOpening.mp hw).2) hwz
  have hr2 : zReach xsz ysz z orig2 w :=
    openTarget_zero_mem ⟨hb2, hz2⟩ (hR2 w |>.mp (mem_sortOpening.mp hw2).2) hwz
  have hreq : ∀ c, (zReach xsz ysz z orig c ↔ zReach xsz ysz z orig2 c) := by
    intro c
    rw [← zReach_congr ⟨hb, hz⟩ hr1 c, zReach_congr ⟨hb2, hz2⟩ hr2 c]
  have hRR : R = R2 := by
    ext c
    rw [hR, hR2, openTarget, openTarget]
    constructor
    · rintro (h | ⟨d, hd, hnb⟩)
      · exact Or.inl ((hreq c).mp h)
      · exact Or.inr ⟨d, (hreq d).mp hd, hnb⟩
    · rintro (h | ⟨d, hd, hnb⟩)
      · exact Or.inl ((hreq c).mpr h)
      · exact Or.inr ⟨d, (hreq d).mpr hd, hnb⟩
  rw [hRR]

/-- The outer loop of `_find_openings`: each produced opening comes
from a blank, and every blank is covered. -/
theorem openingsLoop_spec {xsz ysz : Nat} {z : Coord → Bool} :
    ∀ (fuel : Nat) (blanks : Finset Coord) (acc : List (List Coord)),
      (∀ b ∈ blanks, b ∈ allCoords xsz ysz ∧ z b = true) →
      (∀ b ∈ blanks, ∀ c, zReach xsz ysz z b c → c ∈ blanks) →
      blanks.card ≤ fuel →
      ∃ tail, openingsLoop xsz ysz z fuel blanks acc = acc ++ tail ∧
        (∀ O ∈ tail, ∃ b ∈ blanks, IsOpeningOf xsz ysz z b O) ∧
        (∀ b ∈ blanks, ∃ O ∈ tail, b ∈ O) := by
  intro fuel
  induction fuel with
  | zero =>
    intro blanks acc hb1 _ hfuel
    have hempty : blanks = ∅ := Finset.card_eq_zero.mp (by omega)
    subst hempty
    exact ⟨[], by simp [openingsLoop], by simp, by simp⟩
  | succ fuel ih =>
    intro blanks acc hb1 hb2 hfuel
    rw [openingsLoop]
    cases hpick : pickCoord xsz ysz blanks with
    | none =>
      have hempty : blanks = ∅ :=
        pickCoord_none hpick (fun c hc => (hb1 c hc).1)
      subst hempty
      exact ⟨[], by simp, by simp, by simp⟩
    | some orig =>
      dsimp only
      have horigmem := (pickCoord_some hpick).1
      have horig := hb1 orig horigmem
      have hflood := flood_from_orig horig
      set R := floodLoop xsz ysz z ((xsz * ysz + 1) * (xsz * ysz + 1))
        {orig} {orig} with hRdef
      have horigR : orig ∈ R :=
        (hflood orig).mpr (Or.inl Relation.ReflTransGen.refl)
      have hb1' : ∀ b ∈ blanks \ R, b ∈ allCoords xsz ysz ∧ z b = true :=
        fun b hb => hb1 b (Finset.mem_sdiff.mp hb).1
      have hb2' : ∀ b ∈ blanks \ R, ∀ c, zReach xsz ysz z b c →
          c ∈ blanks \ R := by
        intro b hb c hreach
        have hbb := Finset.mem_sdiff.mp hb
        have hbprops := hb1 b hbb.1
        refine Finset.mem_sdiff.mpr ⟨hb2 b hbb.1 c hreach, ?_⟩
        intro hcR
        have hcprops := zReach_props hbprops hreach
        have hco : zReach xsz ysz z orig c :=
          openTarget_zero_mem horig ((hflood c).mp hcR) hcprops.2
        have hcb : zReach xsz ysz z c b := zReach_symm hbprops hreach
        have : zReach xsz ysz z orig b := Relation.ReflTransGen.trans hco hcb
        exact hbb.2 ((hflood b).mpr (Or.inl this))
      have hcard : (blanks \ R).card ≤ fuel := by
        have hss : blanks \ R ⊆ blanks.erase orig := by
          intro x hx
          have hx2 := Finset.mem_sdiff.mp hx
          refine Finset.mem_erase.mpr ⟨?_, hx2.1⟩
          rintro rfl
          exact hx2.2 horigR
        have h1 := Finset.card_le_card hss
        rw [Finset.card_erase_of_mem horigmem] at h1
        have h2 : 0 < blanks.card := Finset.card_pos.mpr ⟨orig, horigmem⟩
        omega
      obtain ⟨tail2, heq, hall, hcover⟩ :=
        ih (blanks \ R) (acc ++ [sortOpening xsz ysz R]) hb1' hb2' hcard
      refine ⟨sortOpening xsz ysz R :: tail2, ?_, ?_, ?_⟩
      · rw [heq, List.append_assoc]
        rfl
      · intro O hO
        rcases List.mem_cons.mp hO with rfl | hO
        · exact ⟨orig, horigmem, horig.1, horig.2, R, rfl, hflood⟩
        · obtain ⟨b, hb, hbo⟩ := hall O hO
          exact ⟨b, (Finset.mem_sdiff.mp hb).1, hbo⟩
      · intro b hb
        by_cases hbR : b ∈ R
        · exact ⟨sortOpening xsz ysz R, List.mem_cons_self _ _,
            mem_sortOpening.mpr ⟨(hb1 b hb).1, hbR⟩⟩
        · obtain ⟨O, hO, hbO⟩ := hcover b (Finset.mem_sdiff.mpr ⟨hb, hbR⟩)
          exact ⟨O, List.mem_cons_of_mem _ hO, hbO⟩

/-- Every element of `Minefield.openings` is the opening of some blank
cell, and every blank cell lies in one of the openings. -/
theorem Minefield.openings_spec (mf : Minefield) :
    (∀ O ∈ mf.openings, ∃ b, b ∈ allCoords mf.x_size mf.y_size ∧
      mf.isZero b = true ∧ IsOpeningOf mf.x_size mf.y_size mf.isZero b O) ∧
    (∀ b ∈ allCoords mf.x_size mf.y_size, mf.isZero b = true →
      ∃ O ∈ mf.openings, b ∈ O) := by
  have hb1 : ∀ b ∈ ((allCoords mf.x_size mf.y_size).filter
      (fun c => mf.isZero c)).toFinset,
      b ∈ allCoords mf.x_size mf.y_size ∧ mf.isZero b = true := by
    intro b hb
    rw [List.mem_toFinset, List.mem_filter] at hb
    exact hb
  have hb2 : ∀ b ∈ ((allCoords mf.x_size mf.y_size).filter
      (fun c => mf.isZero c)).toFinset,
      ∀ c, zReach mf.x_size mf.y_size mf.isZero b c →
        c ∈ ((allCoords mf.x_size mf.y_size).filter
          (fun c => mf.isZero c)).toFinset := by
    intro b hb c hreach
    have hc := zReach_props (hb1 b hb) hreach
    rw [List.mem_toFinset, List.mem_filter]
    exact ⟨hc.1, hc.2⟩
  have hcard : ((allCoords mf.x_size mf.y_size).filter
      (fun c => mf.isZero c)).toFinset.card ≤ mf.x_size * mf.y_size + 1 := by
    have hss : ((allCoords mf.x_size mf.y_size).filter
        (fun c => mf.isZero c)).toFinset ⊆
        (allCoords mf.x_size mf.y_size).toFinset := by
      intro c hc
      rw [List.mem_toFinset] at hc ⊢
      exact (List.mem_filter.mp hc).1
    have h1 := Finset.card_le_card hss
    rw [allF_card] at h1
    omega
  obtain ⟨tail, heq, hall, hcover⟩ := openingsLoop_spec
    (mf.x_size * mf.y_size + 1)
    ((allCoords mf.x_size mf.y_size).filter (fun c => mf.isZero c)).toFinset
    [] hb1 hb2 hcard
  have hopen : mf.openings = tail := by
    rw [Minefield.openings]
    rw [heq]
    rfl
  constructor
  · intro O hO
    rw [hopen] at hO
    obtain ⟨b, hb, hbo⟩ := hall O hO
    exact ⟨b, (hb1 b hb).1, (hb1 b hb).2, hbo⟩
  · intro b hb hz
    rw [hopen]
    exact hcover b (by
      rw [List.mem_toFinset, List.mem_filter]
      exact ⟨hb, hz⟩)

/-- Bridge between the generic reachability and `Minefield.zeroReach`. -/
theorem zReach_iff_zeroReach (mf : Minefield) (a b : Coord) :
    zReach mf.x_size mf.y_size mf.isZero a b ↔ mf.zeroReach a b := by
  have hrel : ∀ x y, zAdj mf.x_size mf.y_size mf.isZero x y ↔ mf.zeroAdj x y := by
    intro x y
    rw [zAdj, Minefield.zeroAdj, Minefield.isZero, decide_eq_true_iff]
  constructor
  · exact Relation.ReflTransGen.mono (fun x y hxy => (hrel x y).mp hxy)
  · exact Relation.ReflTransGen.mono (fun x y hxy => (hrel x y).mpr hxy)

/-! ## Constructed minefields -/

theorem mkMinefieldNum_fields {xsz ysz mines pc : Nat}
    {safe : Option (List Coord)} {popIdx : Nat} {sh : List Coord}
    {mf : Minefield}
    (h : mkMinefieldNum xsz ysz mines pc safe popIdx sh = Except.ok mf) :
    mf.x_size = xsz ∧ mf.y_size = ysz ∧ mf.per_cell = pc ∧
      mf.nr_mines = mines ∧ mf.mine_coords = sh.take mines ∧
      (∀ c, mf.grid c = (sh.take mines).count c) := by
  rw [mkMinefieldNum] at h
  split at h
  · cases h
  · split at h
    · cases h
    · dsimp only at h
      split at h
      · cases h
      · rename_i hplace
        cases h
        refine ⟨rfl, rfl, rfl, rfl, rfl, ?_⟩
        intro c
        have := placeMines_ok_grid hplace c
        simpa using this

theorem mkMinefieldNum_check {xsz ysz mines pc : Nat}
    {safe : Option (List Coord)} {popIdx : Nat} {sh : List Coord}
    {mf : Minefield}
    (h : mkMinefieldNum xsz ysz mines pc safe popIdx sh = Except.ok mf) :
    check_enough_space xsz ysz mines pc (nrSafeCells safe) = Except.ok () ∧
      ∃ pool, minePool xsz ysz pc safe popIdx = Except.ok pool := by
  rw [mkMinefieldNum] at h
  split at h
  · cases h
  · rename_i hchk
    split at h
    · cases h
    · rename_i pool hpool
      dsimp only at h
      split at h
      · cases h
      · cases h
        refine ⟨?_, pool, hpool⟩
        rcases hchk2 : check_enough_space xsz ysz mines pc (nrSafeCells safe)
          with e | u
        · rw [hchk2] at hchk
          cases hchk
        · rfl

theorem mkMinefieldFromGrid_fields {xsz ysz : Nat} {cnt : Coord → Nat}
    {pc : Nat} {mf : Minefield}
    (h : mkMinefieldFromGrid xsz ysz cnt pc = Except.ok mf) :
    mf.x_size = xsz ∧ mf.y_size = ysz ∧ mf.per_cell = pc ∧
      mf.mine_coords = (allCoords xsz ysz).flatMap
        (fun c => List.replicate (cnt c) c) ∧
      mf.nr_mines = mf.mine_coords.length ∧
      (∀ c, mf.grid c = mf.mine_coords.count c) := by
  rw [mkMinefieldFromGrid] at h
  split at h
  · cases h
  · rename_i hplace
    cases h
    refine ⟨rfl, rfl, rfl, rfl, rfl, ?_⟩
    intro c
    have := placeMines_ok_grid hplace c
    simpa using this

theorem consistent_of_num {xsz ysz mines pc : Nat}
    {safe : Option (List Coord)} {popIdx : Nat} {sh pool : List Coord}
    {mf : Minefield}
    (hpool : minePool xsz ysz pc safe popIdx = Except.ok pool)
    (hperm : sh.Perm pool)
    (h : mkMinefieldNum xsz ysz mines pc safe popIdx sh = Except.ok mf) :
    mf.Consistent := by
  obtain ⟨hx, hy, _, _, hmc, hg⟩ := mkMinefieldNum_fields h
  constructor
  · intro c
    rw [hg c, hmc]
  · intro c hc
    rw [hmc] at hc
    rw [hx, hy]
    exact minePool_subset hpool c (hperm.mem_iff.mp (List.take_subset _ _ hc))

theorem consistent_of_grid {xsz ysz : Nat} {cnt : Coord → Nat} {pc : Nat}
    {mf : Minefield}
    (h : mkMinefieldFromGrid xsz ysz cnt pc = Except.ok mf) :
    mf.Consistent := by
  obtain ⟨hx, hy, _, hmc, _, hg⟩ := mkMinefieldFromGrid_fields h
  refine ⟨hg, ?_⟩
  intro c hc
  rw [hmc] at hc
  rw [hx, hy]
  obtain ⟨a, ha, hrep⟩ := List.mem_flatMap.mp hc
  rw [List.eq_of_mem_replicate hrep]
  exact ha

/-- Cells of openings are in-bounds and mine-free. -/
theorem openings_cells_safe (mf : Minefield) :
    ∀ O ∈ mf.openings, ∀ c ∈ O,
      c ∈ allCoords mf.x_size mf.y_size ∧ mf.grid c = 0 := by
  intro O hO c hc
  obtain ⟨b, hbmem, hbz, hbo⟩ := (mf.openings_spec).1 O hO
  have htarget := (isOpeningOf_mem hbo c).mp hc
  have hcmem : c ∈ allCoords mf.x_size mf.y_size :=
    openTarget_mem_allCoords ⟨hbmem, hbz⟩ htarget
  refine ⟨hcmem, ?_⟩
  rcases htarget with h | ⟨d, hd, hnb⟩
  · have hprops := zReach_props ⟨hbmem, hbz⟩ h
    exact grid_eq_zero_of_board_zero hprops.1
      (by simpa [Minefield.isZero] using hprops.2)
  · have hprops := zReach_props ⟨hbmem, hbz⟩ hd
    exact nbr_grid_eq_zero_of_board_zero hprops.1
      (by simpa [Minefield.isZero] using hprops.2) hnb

/-- Two openings sharing a zero-valued cell coincide. -/
theorem openings_unique_at_zero (mf : Minefield) {w : Coord}
    (hwz : mf.isZero w = true) :
    ∀ O ∈ mf.openings, ∀ O2 ∈ mf.openings, w ∈ O → w ∈ O2 → O = O2 := by
  intro O hO O2 hO2 hw hw2
  obtain ⟨b, hbmem, hbz, hbo⟩ := (mf.openings_spec).1 O hO
  obtain ⟨b2, hbmem2, hbz2, hbo2⟩ := (mf.openings_spec).1 O2 hO2
  exact isOpeningOf_unique hbo hbo2 hw hw2 hwz

theorem nodup_length_le_of_subset {α : Type} [DecidableEq α]
    {l1 l2 : List α} (h1 : l1.Nodup) (h2 : l2.Nodup)
    (hsub : ∀ c ∈ l1, c ∈ l2) : l1.length ≤ l2.length := by
  have hss : l1.toFinset ⊆ l2.toFinset := by
    intro c hc
    rw [List.mem_toFinset] at hc ⊢
    exact hsub c hc
  have h := Finset.card_le_card hss
  rwa [List.card_toFinset, List.card_toFinset, List.dedup_eq_self.mpr h1,
    List.dedup_eq_self.mpr h2] at h

/-- `_calc_3bv` is at least one as soon as some cell is mine-free. -/
theorem bbbv_pos_core (mf : Minefield) (hcons : mf.Consistent)
    (hsafe : ∃ c ∈ allCoords mf.x_size mf.y_size, mf.grid c = 0) :
    1 ≤ mf.bbbv := by
  have hsplit := length_filter_split (allCoords mf.x_size mf.y_size)
    (fun c => decide (mf.grid c = 0))
  rw [length_allCoords] at hsplit
  have hmined : mf.mine_coords.dedup.length =
      ((allCoords mf.x_size mf.y_size).filter
        (fun c => !(decide (mf.grid c = 0)))).length := by
    have hperm : mf.mine_coords.dedup.Perm
        ((allCoords mf.x_size mf.y_size).filter
          (fun c => !(decide (mf.grid c = 0)))) := by
      apply List.perm_of_nodup_nodup_toFinset_eq (List.nodup_dedup _)
        ((allCoords_nodup _ _).filter _)
      ext c
      rw [List.mem_toFinset, List.mem_toFinset, List.mem_dedup,
        List.mem_filter]
      constructor
      · intro hc
        refine ⟨hcons.2 c hc, ?_⟩
        simp only [Bool.not_eq_eq_eq_not, Bool.not_true, decide_eq_false_iff_not]
        rw [hcons.1 c]
        exact fun hzero => (List.count_eq_zero.mp hzero) hc
      · rintro ⟨_, hc⟩
        simp only [Bool.not_eq_eq_eq_not, Bool.not_true,
          decide_eq_false_iff_not] at hc
        rw [hcons.1 c] at hc
        by_contra hmem
        exact hc (List.count_eq_zero.mpr hmem)
    exact hperm.length_eq
  have hexp : mf.openings.flatten.dedup.length ≤
      ((allCoords mf.x_size mf.y_size).filter
        (fun c => decide (mf.grid c = 0))).length := by
    apply nodup_length_le_of_subset (List.nodup_dedup _)
      ((allCoords_nodup _ _).filter _)
    intro c hc
    rw [List.mem_dedup] at hc
    obtain ⟨O, hO, hcO⟩ := List.mem_flatten.mp hc
    have := openings_cells_safe mf O hO c hcO
    rw [List.mem_filter]
    exact ⟨this.1, by simpa using this.2⟩
  by_cases hz : ∃ b ∈ allCoords mf.x_size mf.y_size,
      mf.completedBoard b = CellContents.Num 0
  · obtain ⟨b, hb, hbz⟩ := hz
    obtain ⟨O, hO, _⟩ := (mf.openings_spec).2 b hb
      (by simpa [Minefield.isZero] using hbz)
    have hnop : 1 ≤ mf.openings.length :=
      List.length_pos.mpr (List.ne_nil_of_mem hO)
    rw [Minefield.bbbv]
    omega
  · have hnil : mf.openings = [] := by
      cases hops : mf.openings with
      | nil => rfl
      | cons O rest =>
        obtain ⟨b, hbmem, hbz, _⟩ := (mf.openings_spec).1 O
          (by rw [hops]; exact List.mem_cons_self O rest)
        exact absurd ⟨b, hbmem, by simpa [Minefield.isZero] using hbz⟩ hz
    obtain ⟨c0, hc0, hc0z⟩ := hsafe
    have hsafepos : 1 ≤ ((allCoords mf.x_size mf.y_size).filter
        (fun c => decide (mf.grid c = 0))).length := by
      apply List.length_pos.mpr
      apply List.ne_nil_of_mem
      rw [List.mem_filter]
      exact ⟨hc0, by simpa using hc0z⟩
    rw [Minefield.bbbv, hnil]
    simp only [List.length_nil, List.flatten_nil, List.dedup_nil]
    omega

theorem callRegistered_spec {ε : Type} (method : String) :
    ∀ (ls : List (Listener ε)) (i0 : Nat),
      (∀ l ∈ ls, ∀ m e, ∃ u, l.handleExc m e = Except.ok u) →
      (callRegistered method ls i0).2 = none ∧
      ((callRegistered method ls i0).1.filterMap notifyIdx =
        List.range' i0 ls.length) ∧
      (∀ k l, ls.get? k = some l →
        (∀ u, l.deliver method = Except.ok u →
          FanEvent.notify (i0 + k) none ∈ (callRegistered method ls i0).1) ∧
        (∀ e, l.deliver method = Except.error e →
          FanEvent.notify (i0 + k) (some e) ∈ (callRegistered method ls i0).1 ∧
          FanEvent.excHandled (i0 + k) method e ∈
            (callRegistered method ls i0).1)) := by
  intro ls
  induction ls with
  | nil =>
    intro i0 _
    refine ⟨rfl, rfl, ?_⟩
    intro k l hk
    cases hk
  | cons l rest ih =>
    intro i0 hhook
    have hrest := ih (i0 + 1) (fun l2 hl2 m e => hhook l2 (List.mem_cons_of_mem l hl2) m e)
    cases hdel : l.deliver method with
    | ok u =>
      have hred : callRegistered method (l :: rest) i0 =
          (FanEvent.notify i0 none :: (callRegistered method rest (i0 + 1)).1,
            (callRegistered method rest (i0 + 1)).2) := by
        rw [callRegistered, hdel]
      rw [hred]
      refine ⟨hrest.1, ?_, ?_⟩
      · simp only [List.filterMap_cons, notifyIdx, List.length_cons,
          List.range'_succ]
        rw [hrest.2.1]
      · intro k l2 hk
        cases k with
        | zero =>
          cases hk
          constructor
          · intro u2 _
            exact List.mem_cons_self _ _
          · intro e he
            rw [hdel] at he
            cases he
        | succ k =>
          have hk2 : rest.get? k = some l2 := hk
          have := hrest.2.2 k l2 hk2
          have hidx : i0 + 1 + k = i0 + (k + 1) := by omega
          constructor
          · intro u2 hu2
            have h3 := (this.1 u2 hu2)
            rw [hidx] at h3
            exact List.mem_cons_of_mem _ h3
          · intro e he
            have h3 := this.2 e he
            rw [hidx] at h3
            exact ⟨List.mem_cons_of_mem _ h3.1, List.mem_cons_of_mem _ h3.2⟩
    | error e =>
      obtain ⟨u, hu⟩ := hhook l (List.mem_cons_self l rest) method e
      have hred : callRegistered method (l :: rest) i0 =
          (FanEvent.notify i0 (some e) :: FanEvent.excHandled i0 method e ::
            (callRegistered method rest (i0 + 1)).1,
            (callRegistered method rest (i0 + 1)).2) := by
        simp only [callRegistered, hdel, hu]
      rw [hred]
      refine ⟨hrest.1, ?_, ?_⟩
      · simp only [List.filterMap_cons, notifyIdx, List.length_cons,
          List.range'_succ]
        rw [hrest.2.1]
      · intro k l2 hk
        cases k with
        | zero =>
          cases hk
          constructor
          · intro u2 hu2
            rw [hdel] at hu2
            cases hu2
          · intro e2 he2
            rw [hdel] at he2
            cases he2
            exact ⟨List.mem_cons_self _ _,
              List.mem_cons_of_mem _ (List.mem_cons_self _ _)⟩
        | succ k =>
          have hk2 : rest.get? k = some l2 := hk
          have := hrest.2.2 k l2 hk2
          have hidx : i0 + 1 + k = i0 + (k + 1) := by omega
          constructor
          · intro u2 hu2
            have h3 := (this.1 u2 hu2)
            rw [hidx] at h3
            exact List.mem_cons_of_mem _ (List.mem_cons_of_mem _ h3)
          · intro e2 he2
            have h3 := this.2 e2 he2
            rw [hidx] at h3
            exact ⟨List.mem_cons_of_mem _ (List.mem_cons_of_mem _ h3.1),
              List.mem_cons_of_mem _ (List.mem_cons_of_mem _ h3.2)⟩

/-! ## Python list indexing -/

theorem pyIndex_isSome {α : Type} (l : List α) (i : Int) :
    (pyIndex l i).isSome = true ↔
      (-(l.length : Int) ≤ i ∧ i < (l.length : Int)) := by
  rw [pyIndex]
  have hget : ∀ n : Nat, (l.get? n).isSome = true ↔ n < l.length := by
    intro n
    rw [Option.isSome_iff_ne_none]
    rw [Ne, List.get?_eq_none]
    omega
  by_cases hi : i < 0
  · simp only [if_pos hi]
    by_cases hj : (0 : Int) ≤ i + l.length
    · rw [if_pos hj, hget]
      omega
    · rw [if_neg hj]
      simp only [Option.isSome_none, Bool.false_eq_true, false_iff]
      omega
  · simp only [if_neg hi]
    rw [if_pos (by omega), hget]
    omega

theorem pyIndex_nonneg {α : Type} (l : List α) (i : Nat) :
    pyIndex l (i : Int) = l.get? i := by
  rw [pyIndex]
  simp only [if_neg (by omega : ¬ (i : Int) < 0)]
  rw [if_pos (by omega)]
  simp

theorem pyIndex_neg {α : Type} (l : List α) (i : Int) (hneg : i < 0)
    (hge : -(l.length : Int) ≤ i) :
    pyIndex l i = pyIndex l (i + l.length) := by
  rw [pyIndex, pyIndex]
  simp only [if_pos hneg, if_neg (by omega : ¬ i + (l.length : Int) < 0)]

theorem pySetIdx_isSome {α : Type} (l : List α) (i : Int) (v : α) :
    (pySetIdx l i v).isSome = true ↔
      (-(l.length : Int) ≤ i ∧ i < (l.length : Int)) := by
  rw [pySetIdx]
  by_cases hi : i < 0
  · simp only [if_pos hi]
    split
    · rename_i h
      simp only [Option.isSome_some, true_iff]
      omega
    · rename_i h
      simp only [Option.isSome_none, Bool.false_eq_true, false_iff]
      omega
  · simp only [if_neg hi]
    split
    · rename_i h
      simp only [Option.isSome_some, true_iff]
      omega
    · rename_i h
      simp only [Option.isSome_none, Bool.false_eq_true, false_iff]
      omega

theorem pySetIdx_nonneg {α : Type} (l : List α) (i : Nat) (hi : i < l.length)
    (v : α) : pySetIdx l (i : Int) v = some (l.set i v) := by
  rw [pySetIdx]
  simp only [if_neg (by omega : ¬ (i : Int) < 0)]
  rw [if_pos (by omega)]
  simp

theorem pyIndex_mem {α : Type} {l : List α} {i : Int} {a : α}
    (h : pyIndex l i = some a) : a ∈ l := by
  rw [pyIndex] at h
  split at h <;> split at h <;> first
    | exact List.get?_mem h
    | cases h

theorem pyGrid_row_length {α : Type} {g : PyGrid α} (hwf : g.WF) {y : Int}
    {row : List α} (h : pyIndex g.rows y = some row) :
    row.length = g.x_size :=
  hwf.2 row (pyIndex_mem h)

/-- Reading a grid cell succeeds exactly on the wrap-extended index
ranges. -/
theorem getCoord_isSome {α : Type} {g : PyGrid α} (hwf : g.WF) (x y : Int) :
    ((g.getCoord x y).isSome = true) ↔
      (-(g.x_size : Int) ≤ x ∧ x < (g.x_size : Int) ∧
        -(g.y_size : Int) ≤ y ∧ y < (g.y_size : Int)) := by
  rcases hrow : pyIndex g.rows y with _ | row
  · have hy : ¬ (-((g.rows).length : Int) ≤ y ∧ y < ((g.rows).length : Int)) := by
      rw [← pyIndex_isSome g.rows y, hrow]
      simp
    rw [hwf.1] at hy
    rw [PyGrid.getCoord, hrow]
    simp only [Option.isSome_none, Bool.false_eq_true, false_iff]
    omega
  · have hy : -((g.rows).length : Int) ≤ y ∧ y < ((g.rows).length : Int) := by
      rw [← pyIndex_isSome g.rows y, hrow]
      rfl
    rw [hwf.1] at hy
    rw [PyGrid.getCoord, hrow]
    rw [show ((match some row with
        | none => none
        | some row => pyIndex row x) : Option α) = pyIndex row x from rfl]
    rw [pyIndex_isSome row x, pyGrid_row_length hwf hrow]
    constructor
    · rintro ⟨h1, h2⟩
      exact ⟨h1, h2, hy.1, hy.2⟩
    · rintro ⟨h1, h2, _, _⟩
      exact ⟨h1, h2⟩

/-- Reading an in-bounds coordinate is plain row/column access. -/
theorem getCoord_nonneg {α : Type} (g : PyGrid α) (x y : Nat) :
    g.getCoord (x : Int) (y : Int) = g.cellAt x y := by
  rw [PyGrid.getCoord, PyGrid.cellAt, pyIndex_nonneg]
  rcases hrow : g.rows.get? y with _ | row
  · rfl
  · exact pyIndex_nonneg row x

/-- A negative in-range x index wraps. -/
theorem getCoord_neg_x {α : Type} {g : PyGrid α} (hwf : g.WF) (x y : Int)
    (hx : x < 0) (hx2 : -(g.x_size : Int) ≤ x) :
    g.getCoord x y = g.getCoord (x + g.x_size) y := by
  rw [PyGrid.getCoord, PyGrid.getCoord]
  rcases hrow : pyIndex g.rows y with _ | row
  · rfl
  · dsimp only
    rw [show (g.x_size : Int) = (row.length : Int) by
      rw [pyGrid_row_length hwf hrow]]
    exact pyIndex_neg row x hx
      (by rw [pyGrid_row_length hwf hrow]; exact hx2)

/-- A negative in-range y index wraps. -/
theorem getCoord_neg_y {α : Type} {g : PyGrid α} (hwf : g.WF) (x y : Int)
    (hy : y < 0) (hy2 : -(g.y_size : Int) ≤ y) :
    g.getCoord x y = g.getCoord x (y + g.y_size) := by
  rw [PyGrid.getCoord, PyGrid.getCoord]
  rw [show (g.y_size : Int) = (g.rows.length : Int) by rw [hwf.1]]
  rw [← pyIndex_neg g.rows y hy (by rw [hwf.1]; exact hy2)]

/-- Writing succeeds on the same wrap-extended ranges as reading. -/
theorem setCoord_isSome {α : Type} {g : PyGrid α} (hwf : g.WF) (x y : Int)
    (v : α) :
    ((g.setCoord x y v).isSome = true) ↔
      (-(g.x_size : Int) ≤ x ∧ x < (g.x_size : Int) ∧
        -(g.y_size : Int) ≤ y ∧ y < (g.y_size : Int)) := by
  rcases hrow : pyIndex g.rows y with _ | row
  · have hy : ¬ (-((g.rows).length : Int) ≤ y ∧ y < ((g.rows).length : Int)) := by
      rw [← pyIndex_isSome g.rows y, hrow]
      simp
    rw [hwf.1] at hy
    rw [PyGrid.setCoord, hrow]
    simp only [Option.isSome_none, Bool.false_eq_true, false_iff]
    omega
  · have hy : -((g.rows).length : Int) ≤ y ∧ y < ((g.rows).length : Int) := by
      rw [← pyIndex_isSome g.rows y, hrow]
      rfl
    rw [hwf.1] at hy
    rw [PyGrid.setCoord, hrow]
    dsimp only
    rcases hset : pySetIdx row x v with _ | row2
    · have hx : ¬ (-((row).length : Int) ≤ x ∧ x < ((row).length : Int)) := by
        rw [← pySetIdx_isSome row x v, hset]
        simp
      rw [pyGrid_row_length hwf hrow] at hx
      simp only [Option.isSome_none, Bool.false_eq_true, false_iff]
      omega
    · have hx : -((row).length : Int) ≤ x ∧ x < ((row).length : Int) := by
        rw [← pySetIdx_isSome row x v, hset]
        rfl
      rw [pyGrid_row_length hwf hrow] at hx
      dsimp only
      rcases hset2 : pySetIdx g.rows y row2 with _ | rows2
      · exfalso
        have hy2 : ¬ (-((g.rows).length : Int) ≤ y ∧ y < ((g.rows).length : Int)) := by
          rw [← pySetIdx_isSome g.rows y row2, hset2]
          simp
        rw [hwf.1] at hy2
        omega
      · simp only [Option.isSome_some, true_iff]
        exact ⟨hx.1, hx.2, hy.1, hy.2⟩

/-- Writing an in-bounds coordinate updates that cell and nothing
else, preserving well-formedness. -/
theorem setCoord_nonneg {α : Type} {g : PyGrid α} (hwf : g.WF) (x y : Nat)
    (hx : x < g.x_size) (hy : y < g.y_size) (v : α) :
    ∃ g2 : PyGrid α, g.setCoord (x : Int) (y : Int) v = some g2 ∧
      g2.WF ∧ g2.x_size = g.x_size ∧ g2.y_size = g.y_size ∧
      g2.cellAt x y = some v ∧
      (∀ x2 y2 : Nat, (x2, y2) ≠ (x, y) →
        g2.cellAt x2 y2 = g.cellAt x2 y2) := by
  have hylen : y < g.rows.length := by rw [hwf.1]; exact hy
  obtain ⟨row, hrow⟩ : ∃ row, g.rows.get? y = some row := by
    rw [List.get?_eq_get hylen]
    exact ⟨_, rfl⟩
  have hrowlen : row.length = g.x_size := hwf.2 row (List.get?_mem hrow)
  have hxlen : x < row.length := by rw [hrowlen]; exact hx
  refine ⟨⟨g.x_size, g.y_size, g.rows.set y (row.set x v)⟩, ?_, ?_, rfl, rfl,
    ?_, ?_⟩
  · rw [PyGrid.setCoord, pyIndex_nonneg, hrow]
    dsimp only
    rw [pySetIdx_nonneg row x hxlen v]
    dsimp only
    rw [pySetIdx_nonneg g.rows y hylen (row.set x v)]
  · constructor
    · simp only [List.length_set]
      exact hwf.1
    · intro row2 hrow2
      rcases List.mem_or_eq_of_mem_set hrow2 with h | h
      · exact hwf.2 row2 h
      · rw [h, List.length_set]
        exact hrowlen
  · rw [PyGrid.cellAt]
    dsimp only
    rw [List.get?_set, if_pos rfl, hrow]
    simp only [Option.map_eq_map, Option.map_some', Option.some_bind]
    rw [List.get?_set, if_pos rfl, List.get?_eq_get hxlen]
    rfl
  · intro x2 y2 hne
    rw [PyGrid.cellAt, PyGrid.cellAt]
    dsimp only
    by_cases hy2 : y = y2
    · subst hy2
      have hxne : x ≠ x2 := by
        intro hxe
        exact hne (by rw [hxe])
      rw [List.get?_set, if_pos rfl, hrow]
      simp only [Option.map_eq_map, Option.map_some', Option.some_bind]
      rw [List.get?_set, if_neg hxne]
    · rw [List.get?_set, if_neg hy2]

/-! ## Order and size of neighbour lists -/

theorem getNbrs_pairwise_block (xsz ysz : Nat) (c : Coord) :
    List.Pairwise lexLt (getNbrs xsz ysz c true) := by
  rw [getNbrs, if_pos rfl, List.pairwise_flatMap]
  constructor
  · intro a _
    rw [List.pairwise_map]
    refine List.Pairwise.imp ?_ (List.pairwise_lt_range' _ _ 1)
    intro i j hij
    exact Or.inr ⟨rfl, hij⟩
  · refine List.Pairwise.imp ?_ (List.pairwise_lt_range' _ _ 1)
    intro a b hab
    intro e he e2 he2
    simp only [List.mem_map] at he he2
    obtain ⟨ya, _, rfl⟩ := he
    obtain ⟨yb, _, rfl⟩ := he2
    exact Or.inl hab

theorem getNbrs_pairwise (xsz ysz : Nat) (c : Coord) (io : Bool) :
    List.Pairwise lexLt (getNbrs xsz ysz c io) := by
  cases io
  · rw [getNbrs_false_eq_erase]
    exact List.Pairwise.sublist (List.erase_sublist c _) (getNbrs_pairwise_block xsz ysz c)
  · exact getNbrs_pairwise_block xsz ysz c

theorem length_getNbrs_true (xsz ysz : Nat) (c : Coord) :
    (getNbrs xsz ysz c true).length =
      (min xsz (c.1 + 2) - (c.1 - 1)) * (min ysz (c.2 + 2) - (c.2 - 1)) := by
  rw [getNbrs, if_pos rfl, List.length_flatMap]
  simp only [Function.comp_def, List.length_map, List.length_range',
    List.map_const']
  simp [List.sum_replicate, smul_eq_mul, Nat.mul_comm]

theorem length_getNbrs_false {xsz ysz : Nat} {c : Coord}
    (hc : c.1 < xsz ∧ c.2 < ysz) :
    (getNbrs xsz ysz c false).length =
      (min xsz (c.1 + 2) - (c.1 - 1)) * (min ysz (c.2 + 2) - (c.2 - 1)) - 1 := by
  have hmem : c ∈ getNbrs xsz ysz c true :=
    mem_getNbrs_true.mpr ⟨hc.1, hc.2, by omega, by omega, by omega, by omega⟩
  rw [getNbrs_false_eq_erase, List.length_erase_of_mem hmem,
    length_getNbrs_true]

theorem length_getNbrs_false_le {xsz ysz : Nat} {c : Coord}
    (hc : c.1 < xsz ∧ c.2 < ysz) :
    (getNbrs xsz ysz c false).length ≤ 8 := by
  rw [length_getNbrs_false hc]
  have h1 : min xsz (c.1 + 2) - (c.1 - 1) ≤ 3 := by omega
  have h2 : min ysz (c.2 + 2) - (c.2 - 1) ≤ 3 := by omega
  have := Nat.mul_le_mul h1 h2
  omega

theorem length_getNbrs_false_ge {xsz ysz : Nat} {c : Coord}
    (hc : c.1 < xsz ∧ c.2 < ysz) (hx : 2 ≤ xsz) (hy : 2 ≤ ysz) :
    3 ≤ (getNbrs xsz ysz c false).length := by
  rw [length_getNbrs_false hc]
  have h1 : 2 ≤ min xsz (c.1 + 2) - (c.1 - 1) := by omega
  have h2 : 2 ≤ min ysz (c.2 + 2) - (c.2 - 1) := by omega
  have := Nat.mul_le_mul h1 h2
  omega

theorem perm_count_eq {α : Type} [BEq α] {l1 l2 : List α} (h : l1.Perm l2)
    (a : α) : l1.count a = l2.count a :=
  h.countP_eq _

theorem placeMines_error_msg {pc : Nat} :
    ∀ (l : List Coord) (g : Coord → Nat) {e : String},
      placeMines pc g l = Except.error e → e = tooManyMsg := by
  intro l
  induction l with
  | nil =>
    intro g e h
    rw [placeMines] at h
    cases h
  | cons a rest ih =>
    intro g e h
    rw [placeMines] at h
    split at h
    · cases h
      rfl
    · exact ih _ h

/-! ## Claim theorems -/

/-- C1: Minefield construction with a numeric mine count fails with a
capacity error if and only if
`mines > (x_size*y_size - safe_n) * per_cell`, where
`safe_n = nrSafeCells safe` is the number of distinct supplied safe
coordinates, or `1` when no safe coordinates are supplied (`None` or an
empty list); on failure no `Minefield` is produced (the `Except` holds
no value).  This holds for every pop index and every shuffle outcome:
the capacity check runs before any randomness is consumed, and the
other failure modes carry different error messages. -/
theorem claim_capacity_error_iff (xsz ysz mines pc : Nat)
    (safe : Option (List Coord)) (popIdx : Nat) (sh : List Coord) :
    mkMinefieldNum xsz ysz mines pc safe popIdx sh =
        Except.error capacityMsg ↔
      (mines : Int) >
        (((xsz * ysz : Nat) : Int) - (nrSafeCells safe : Int)) * (pc : Int) := by
  rw [mkMinefieldNum, check_enough_space]
  by_cases hcond : (mines : Int) >
      (((xsz * ysz : Nat) : Int) - (nrSafeCells safe : Int)) * (pc : Int)
  · rw [if_pos hcond]
    simp only [hcond, iff_true]
  · rw [if_neg hcond]
    simp only [hcond, iff_false]
    rcases hpool : minePool xsz ysz pc safe popIdx with e | pool
    · dsimp only
      have he : e = randintMsg := by
        rw [minePool_eq] at hpool
        split at hpool
        · split at hpool
          · cases hpool
            rfl
          · cases hpool
        · cases hpool
      subst he
      intro hcontra
      have h2 : randintMsg = capacityMsg := by injection hcontra
      exact absurd h2 (by decide)
    · dsimp only
      rcases hplace : placeMines pc (fun _ => 0) (sh.take mines) with e2 | g
      · dsimp only
        have he2 : e2 = tooManyMsg := placeMines_error_msg _ _ hplace
        subst he2
        intro hcontra
        have h2 : tooManyMsg = capacityMsg := by injection hcontra
        exact absurd h2 (by decide)
      · dsimp only
        intro hcontra
        cases hcontra

/-- C2: for every successfully generated Minefield with a numeric mine
count, under the contracts of the random primitives (`sh` a permutation
of the candidate pool, `popIdx` a valid `randint` result): if
`safe_coords` is a non-empty list, every listed cell holds zero mines;
if `safe_coords` is absent or the empty list, at least one grid cell
holds zero mines. -/
theorem claim_safe_cell_guarantee (xsz ysz mines pc popIdx : Nat)
    (safe : Option (List Coord)) (sh pool : List Coord) (mf : Minefield)
    (hpool : minePool xsz ysz pc safe popIdx = Except.ok pool)
    (hperm : sh.Perm pool)
    (hpop : popIdx < xsz * ysz)
    (hok : mkMinefieldNum xsz ysz mines pc safe popIdx sh = Except.ok mf) :
    (∀ sc, safe = some sc → sc ≠ [] → ∀ c ∈ sc, mf.grid c = 0) ∧
    ((safe = none ∨ safe = some []) →
      ∃ c ∈ allCoords xsz ysz, mf.grid c = 0) := by
  obtain ⟨_, _, _, _, _, hg⟩ := mkMinefieldNum_fields hok
  have hcount0 : ∀ c, c ∉ pool → mf.grid c = 0 := by
    intro c hc
    rw [hg c]
    have h1 : (sh.take mines).count c ≤ sh.count c :=
      (List.take_sublist mines sh).count_le c
    rw [perm_count_eq hperm c, List.count_eq_zero.mpr hc] at h1
    omega
  constructor
  · rintro sc rfl _ c hcsc
    exact hcount0 c (minePool_safe_not_mem hpool c hcsc)
  · intro hnone
    obtain ⟨e, he, hepool⟩ := minePool_none_missing hnone hpop hpool
    exact ⟨e, he, hcount0 e hepool⟩

/-- C2 witness: a concrete 2x1 board with safe cell (0,0): the cell
keeps zero mines. -/
theorem claim_safe_cell_guarantee_witness :
    ∃ mf, mkMinefieldNum 2 1 1 1 (some [((0, 0) : Coord)]) 0 [(1, 0)] =
        Except.ok mf ∧ mf.grid (0, 0) = 0 :=
  ⟨(mkMinefieldNum 2 1 1 1 (some [((0, 0) : Coord)]) 0
      [(1, 0)]).toOption.getD default, rfl,
    (claim_safe_cell_guarantee 2 1 1 1 0 (some [((0, 0) : Coord)]) [(1, 0)]
        [(1, 0)] _ rfl (List.Perm.refl _) (by decide) rfl).1
      [((0, 0) : Coord)] rfl (by decide) (0, 0) (by decide)⟩

/-- C3: for every successfully generated Minefield with a numeric mine
count (under the random-primitive contracts), `nr_mines` equals the
number of stored mine coordinates and the total of the per-cell counts
over the grid, and no cell exceeds `per_cell`. -/
theorem claim_mine_counts (xsz ysz mines pc popIdx : Nat)
    (safe : Option (List Coord)) (sh pool : List Coord) (mf : Minefield)
    (hpool : minePool xsz ysz pc safe popIdx = Except.ok pool)
    (hperm : sh.Perm pool)
    (hok : mkMinefieldNum xsz ysz mines pc safe popIdx sh = Except.ok mf) :
    mf.nr_mines = mf.mine_coords.length ∧
    mf.nr_mines = ((allCoords mf.x_size mf.y_size).map mf.grid).sum ∧
    (∀ c, mf.grid c ≤ mf.per_cell) := by
  obtain ⟨hx, hy, hpc, hnr, hmc, hg⟩ := mkMinefieldNum_fields hok
  have hchk := (mkMinefieldNum_check hok).1
  have hlen : mines ≤ sh.length := by
    rw [hperm.length_eq]
    exact minePool_length_ge hchk hpool
  have hlentake : (sh.take mines).length = mines := by
    rw [List.length_take]
    omega
  have hsub : ∀ c ∈ sh.take mines, c ∈ allCoords xsz ysz := by
    intro c hc
    exact minePool_subset hpool c
      (hperm.mem_iff.mp (List.take_subset mines sh hc))
  refine ⟨?_, ?_, ?_⟩
  · rw [hnr, hmc, hlentake]
  · rw [hnr, hx, hy]
    have hmap : (allCoords xsz ysz).map mf.grid =
        (allCoords xsz ysz).map (fun c => (sh.take mines).count c) :=
      List.map_congr_left (fun c _ => hg c)
    rw [hmap, sum_map_count_eq_length (allCoords xsz ysz)
      (allCoords_nodup xsz ysz) (sh.take mines) hsub, hlentake]
  · intro c
    rw [hg c, hpc]
    have h1 : (sh.take mines).count c ≤ sh.count c :=
      (List.take_sublist mines sh).count_le c
    have h2 := minePool_count_le hpool c
    rw [perm_count_eq hperm c] at h1
    omega

/-- C3 witness: the same concrete 2x1 construction. -/
theorem claim_mine_counts_witness :
    ∃ mf, mkMinefieldNum 2 1 1 1 (some [((0, 0) : Coord)]) 0 [(1, 0)] =
        Except.ok mf ∧ mf.nr_mines = mf.mine_coords.length :=
  ⟨(mkMinefieldNum 2 1 1 1 (some [((0, 0) : Coord)]) 0
      [(1, 0)]).toOption.getD default, rfl,
    (claim_mine_counts 2 1 1 1 0 (some [((0, 0) : Coord)]) [(1, 0)]
        [(1, 0)] _ rfl (List.Perm.refl _) rfl).1⟩

/-- C4 counterexample: the claim says a cell with `k ≥ 1` mines shows
`Mine(k)` on the completed board, but `_calc_completed_board` writes
`CellFlag(mines)` (`minefield.py:207`): on a 2x1 board with one mine at
(0,0), the completed board shows `Flag 1`, not `Mine 1`. -/
theorem claim_completed_board_cex :
    ∃ mf, mkMinefieldFromGrid 2 1
        (fun c => if c = ((0, 0) : Coord) then 1 else 0) 1 = Except.ok mf ∧
      mf.grid (0, 0) = 1 ∧
      mf.completedBoard (0, 0) ≠ CellContents.Mine 1 ∧
      mf.completedBoard (0, 0) = CellContents.Flag 1 :=
  ⟨(mkMinefieldFromGrid 2 1 (fun c => if c = ((0, 0) : Coord) then 1 else 0)
      1).toOption.getD default, rfl, by decide, by decide, by decide⟩

/-- C4 (amended): for every Minefield and every in-bounds cell, a cell
with `k ≥ 1` mines shows `Flag(k)` (not `Mine(k)`) on the completed
board, and a mine-free cell shows `Num` of the sum of the mine counts
of its at-most-8 neighbours. -/
theorem claim_completed_board (mf : Minefield) (c : Coord)
    (hc : c ∈ allCoords mf.x_size mf.y_size) :
    (0 < mf.grid c → mf.completedBoard c = CellContents.Flag (mf.grid c)) ∧
    (mf.grid c = 0 → mf.completedBoard c = CellContents.Num
      (((getNbrs mf.x_size mf.y_size c false).map mf.grid).sum)) :=
  completedBoard_spec mf c hc

/-- C4 witness: the concrete 2x1 board evaluated through the theorem. -/
theorem claim_completed_board_witness :
    ((mkMinefieldFromGrid 2 1 (fun c => if c = ((0, 0) : Coord) then 1 else 0)
        1).toOption.getD default).completedBoard (1, 0) =
      CellContents.Num 1 := by
  have h := (claim_completed_board
    ((mkMinefieldFromGrid 2 1 (fun c => if c = ((0, 0) : Coord) then 1 else 0)
        1).toOption.getD default) (1, 0) (by decide)).2 (by decide)
  rw [h]
  decide

/-- C5 counterexample: on a 3x3 board with mines at (2,0) and (0,2) the
two openings each contain numbered border cells and share the cell
(1,1), refuting both disjointness and the all-zero property as
stated. -/
theorem claim_openings_cex :
    ∃ mf, mkMinefieldFromGrid 3 3
        (fun c => if c = ((2, 0) : Coord) ∨ c = ((0, 2) : Coord) then 1 else 0)
        1 = Except.ok mf ∧
      (∃ O ∈ mf.openings, ∃ c ∈ O,
        mf.completedBoard c ≠ CellContents.Num 0) ∧
      (∃ O ∈ mf.openings, ∃ O2 ∈ mf.openings, O ≠ O2 ∧ ∃ c ∈ O, c ∈ O2) :=
  ⟨(mkMinefieldFromGrid 3 3
      (fun c => if c = ((2, 0) : Coord) ∨ c = ((0, 2) : Coord) then 1 else 0)
      1).toOption.getD default, rfl, by decide, by decide⟩

/-- C5 (amended): distinct openings are disjoint on their zero-valued
cells (a shared cell is never `Num 0`), and every cell of an opening
either shows `Num 0` or is a neighbour of a `Num 0` cell of the same
opening. -/
theorem claim_openings_zero_structure (mf : Minefield) :
    (∀ O ∈ mf.openings, ∀ O2 ∈ mf.openings, O ≠ O2 → ∀ c ∈ O, c ∈ O2 →
      mf.completedBoard c ≠ CellContents.Num 0) ∧
    (∀ O ∈ mf.openings, ∀ c ∈ O,
      mf.completedBoard c = CellContents.Num 0 ∨
      ∃ d ∈ O, mf.completedBoard d = CellContents.Num 0 ∧
        c ∈ getNbrs mf.x_size mf.y_size d false) := by
  constructor
  · intro O hO O2 hO2 hne c hcO hcO2 hz
    exact hne (openings_unique_at_zero mf
      (by simpa [Minefield.isZero] using hz) O hO O2 hO2 hcO hcO2)
  · intro O hO c hcO
    obtain ⟨b, hbmem, hbz, hbo⟩ := (mf.openings_spec).1 O hO
    rcases (isOpeningOf_mem hbo c).mp hcO with h | ⟨d, hd, hnb⟩
    · left
      have hprops := zReach_props ⟨hbmem, hbz⟩ h
      simpa [Minefield.isZero] using hprops.2
    · right
      have hprops := zReach_props ⟨hbmem, hbz⟩ hd
      refine ⟨d, (isOpeningOf_mem hbo d).mpr (Or.inl hd), ?_, hnb⟩
      simpa [Minefield.isZero] using hprops.2

/-- C5 witness: the two shared-border openings of the 3x3 example; the
shared cell (1,1) is not zero-valued. -/
theorem claim_openings_zero_structure_witness :
    ((mkMinefieldFromGrid 3 3
        (fun c => if c = ((2, 0) : Coord) ∨ c = ((0, 2) : Coord) then 1 else 0)
        1).toOption.getD default).completedBoard (1, 1) ≠
      CellContents.Num 0 :=
  (claim_openings_zero_structure
      ((mkMinefieldFromGrid 3 3
        (fun c => if c = ((2, 0) : Coord) ∨ c = ((0, 2) : Coord) then 1 else 0)
        1).toOption.getD default)).1
    [(0, 0), (0, 1), (1, 0), (1, 1)] (by decide)
    [(1, 1), (1, 2), (2, 1), (2, 2)] (by decide) (by decide)
    (1, 1) (by decide) (by decide)

/-- C6 counterexample: `from_grid` performs no capacity check, so a
board whose every cell is mined is constructible; its 3bv is 0, not at
least 1. -/
theorem claim_bbbv_cex :
    ∃ mf, mkMinefieldFromGrid 1 1 (fun _ => 1) 1 = Except.ok mf ∧
      mf.bbbv = 0 ∧ ¬ (1 ≤ mf.bbbv) :=
  ⟨(mkMinefieldFromGrid 1 1 (fun _ => 1) 1).toOption.getD default, rfl,
    by decide, by decide⟩

/-- C6 (amended): for every Minefield built by either constructor
(random placement under the random-primitive contracts, or an explicit
mine grid), `bbbv = openings + (cells - mined cells - opening cells)`
is at least 1 provided at least one cell holds no mine — the guarantee
the claim states unconditionally fails only for boards with no
mine-free cell, which only the explicit-layout path can build. -/
theorem claim_bbbv_ge_one (mf : Minefield)
    (hcons : (∃ xsz ysz mines pc safe popIdx sh pool,
        minePool xsz ysz pc safe popIdx = Except.ok pool ∧
        List.Perm sh pool ∧
        mkMinefieldNum xsz ysz mines pc safe popIdx sh = Except.ok mf) ∨
      (∃ xsz ysz cnt pc, mkMinefieldFromGrid xsz ysz cnt pc = Except.ok mf))
    (hsafe : ∃ c ∈ allCoords mf.x_size mf.y_size, mf.grid c = 0) :
    1 ≤ mf.bbbv := by
  rcases hcons with ⟨xsz, ysz, mines, pc, safe, popIdx, sh, pool, hpool,
      hperm, hok⟩ | ⟨xsz, ysz, cnt, pc, hok⟩
  · exact bbbv_pos_core mf (consistent_of_num hpool hperm hok) hsafe
  · exact bbbv_pos_core mf (consistent_of_grid hok) hsafe

/-- C6 witness: a 2x1 board with one mine has 3bv at least 1. -/
theorem claim_bbbv_ge_one_witness :
    ∃ mf, mkMinefieldFromGrid 2 1
        (fun c => if c = ((0, 0) : Coord) then 1 else 0) 1 = Except.ok mf ∧
      1 ≤ mf.bbbv :=
  ⟨(mkMinefieldFromGrid 2 1 (fun c => if c = ((0, 0) : Coord) then 1 else 0)
      1).toOption.getD default, rfl,
    claim_bbbv_ge_one _
      (Or.inr ⟨2, 1, fun c => if c = ((0, 0) : Coord) then 1 else 0, 1, rfl⟩)
      (by decide)⟩

/-- C7 counterexample: on a 1x1 grid the in-bounds coordinate (0,0) has
no neighbours at all, so the claimed lower bound of 3 fails. -/
theorem claim_get_nbrs_cex :
    (mkPyGrid 1 1 (0 : Nat)).get_nbrs 0 0 false = [] ∧
    ¬ (3 ≤ ((mkPyGrid 1 1 (0 : Nat)).get_nbrs 0 0 false).length) := by
  constructor
  · rfl
  · decide

/-- C7 (amended): for every Grid and in-bounds coordinate, `get_nbrs`
returns exactly the in-bounds coordinates at Chebyshev distance 1
(including the origin only when `include_origin` is set), emitted in
the strictly increasing lexicographic order of the nested loops; with
the origin excluded the count is at most 8, and it is at least 3
provided both grid dimensions are at least 2 (the bound the claim
states for all grids fails on 1-wide or 1-tall grids). -/
theorem claim_get_nbrs_characterization {α : Type} (g : PyGrid α)
    (x y : Nat) (hx : x < g.x_size) (hy : y < g.y_size) (io : Bool) :
    (∀ i j : Nat, ((i, j) ∈ g.get_nbrs x y io ↔
      (i < g.x_size ∧ j < g.y_size ∧ x ≤ i + 1 ∧ i ≤ x + 1 ∧ y ≤ j + 1 ∧
        j ≤ y + 1 ∧ (io = true ∨ ¬(i = x ∧ j = y))))) ∧
    List.Pairwise lexLt (g.get_nbrs x y io) ∧
    (io = false → (g.get_nbrs x y io).length ≤ 8) ∧
    (io = false → 2 ≤ g.x_size → 2 ≤ g.y_size →
      3 ≤ (g.get_nbrs x y io).length) := by
  refine ⟨?_, getNbrs_pairwise g.x_size g.y_size (x, y) io, ?_, ?_⟩
  · intro i j
    cases io
    · rw [PyGrid.get_nbrs, mem_getNbrs_false]
      constructor
      · rintro ⟨h1, h2, h3, h4, h5, h6, h7⟩
        refine ⟨h1, h2, h3, h4, h5, h6, Or.inr ?_⟩
        rintro ⟨rfl, rfl⟩
        exact h7 rfl
      · rintro ⟨h1, h2, h3, h4, h5, h6, h7⟩
        refine ⟨h1, h2, h3, h4, h5, h6, ?_⟩
        intro hne
        rcases h7 with h7 | h7
        · cases h7
        · exact h7 (by rw [Prod.mk.injEq] at hne; exact hne)
    · rw [PyGrid.get_nbrs, mem_getNbrs_true]
      constructor
      · rintro ⟨h1, h2, h3, h4, h5, h6⟩
        exact ⟨h1, h2, h3, h4, h5, h6, Or.inl rfl⟩
      · rintro ⟨h1, h2, h3, h4, h5, h6, _⟩
        exact ⟨h1, h2, h3, h4, h5, h6⟩
  · rintro rfl
    exact length_getNbrs_false_le ⟨hx, hy⟩
  · rintro rfl hx2 hy2
    exact length_getNbrs_false_ge ⟨hx, hy⟩ hx2 hy2

/-- C7 witness: the corner of a 2x2 grid has exactly 3 neighbours. -/
theorem claim_get_nbrs_characterization_witness :
    3 ≤ ((mkPyGrid 2 2 (0 : Nat)).get_nbrs 0 0 false).length :=
  (claim_get_nbrs_characterization (mkPyGrid 2 2 (0 : Nat)) 0 0
      (by decide) (by decide) false).2.2.2 rfl (by decide) (by decide)

/-- C8 counterexample: reading a well-formed 2x2 grid at the
out-of-range coordinate (-1, 0) does not fail — Python list indexing
wraps negative indices, returning the last cell of row 0. -/
theorem claim_grid_access_cex :
    ¬ (0 ≤ (-1 : Int)) ∧
    (mkPyGrid 2 2 (7 : Nat)).getCoord (-1) 0 = some 7 := by
  constructor
  · decide
  · rfl

/-- C8 (amended): reading or writing a cell of a well-formed grid fails
exactly when an index falls outside the wrap-extended range
`[-size, size)`; coordinates in `[0, x_size) x [0, y_size)` succeed
(writes updating only the addressed cell), and negative in-range
indices wrap by adding the corresponding dimension. -/
theorem claim_grid_access_characterization {α : Type} (g : PyGrid α)
    (hwf : g.WF) :
    (∀ x y : Int, ((g.getCoord x y).isSome = true ↔
      (-(g.x_size : Int) ≤ x ∧ x < (g.x_size : Int) ∧
        -(g.y_size : Int) ≤ y ∧ y < (g.y_size : Int)))) ∧
    (∀ (v : α) (x y : Int), ((g.setCoord x y v).isSome = true ↔
      (-(g.x_size : Int) ≤ x ∧ x < (g.x_size : Int) ∧
        -(g.y_size : Int) ≤ y ∧ y < (g.y_size : Int)))) ∧
    (∀ x y : Nat, g.getCoord (x : Int) (y : Int) = g.cellAt x y) ∧
    (∀ x y : Int, x < 0 → -(g.x_size : Int) ≤ x →
      g.getCoord x y = g.getCoord (x + g.x_size) y) ∧
    (∀ x y : Int, y < 0 → -(g.y_size : Int) ≤ y →
      g.getCoord x y = g.getCoord x (y + g.y_size)) ∧
    (∀ (v : α) (x y : Nat), x < g.x_size → y < g.y_size →
      ∃ g2 : PyGrid α, g.setCoord (x : Int) (y : Int) v = some g2 ∧
        g2.WF ∧ g2.x_size = g.x_size ∧ g2.y_size = g.y_size ∧
        g2.cellAt x y = some v ∧
        (∀ x2 y2 : Nat, (x2, y2) ≠ (x, y) →
          g2.cellAt x2 y2 = g.cellAt x2 y2)) := by
  refine ⟨fun x y => getCoord_isSome hwf x y,
    fun v x y => setCoord_isSome hwf x y v,
    fun x y => getCoord_nonneg g x y,
    fun x y hx hx2 => getCoord_neg_x hwf x y hx hx2,
    fun x y hy hy2 => getCoord_neg_y hwf x y hy hy2,
    fun v x y hx hy => setCoord_nonneg hwf x y hx hy v⟩

/-- C8 witness: the 2x2 grid evaluated through the theorem — the
out-of-range read at x = -3 fails, via the range characterization. -/
theorem claim_grid_access_characterization_witness :
    ((mkPyGrid 2 2 (7 : Nat)).getCoord (-3) 0).isSome = false := by
  have h := (claim_grid_access_characterization (mkPyGrid 2 2 (7 : Nat))
    (by constructor <;> decide)).1 (-3) 0
  rcases hval : ((mkPyGrid 2 2 (7 : Nat)).getCoord (-3) 0).isSome with _ | _
  · rfl
  · exfalso
    have h2 := h.mp hval
    have : ¬ (-(((mkPyGrid 2 2 (7 : Nat)).x_size : Nat) : Int) ≤ -3) := by
      decide
    exact this h2.1

/-- C9 counterexample: when the first listener's delivery raises and
its `handle_exception` raises too, the exception escapes the fan-out
loop and the second listener never receives the notification. -/
theorem claim_fanout_cex :
    (callRegistered "reset" [lBad, lGood] 0).2 = some 1 ∧
    (∀ ev ∈ (callRegistered "reset" [lBad, lGood] 0).1,
      ∀ o : Option Nat, ev ≠ FanEvent.notify 1 o) := by
  constructor
  · rfl
  · intro ev hev o
    have h : (callRegistered "reset" [lBad, lGood] 0).1 =
        [FanEvent.notify 0 (some 0)] := rfl
    rw [h] at hev
    rw [List.mem_singleton.mp hev]
    simp

/-- C9 (amended): provided no listener's `handle_exception` raises, the
fan-out completes without an escaping exception, invokes the listeners
exactly in registration order, and for a listener whose delivery raises
it calls `handle_exception` with the method name and the exception
while every other listener still receives the notification.  (If a
`handle_exception` itself raises, the loop aborts — see the
counterexample.) -/
theorem claim_fanout (ε : Type) (method : String) (ls : List (Listener ε))
    (hhook : ∀ l ∈ ls, ∀ m e, ∃ u, l.handleExc m e = Except.ok u) :
    (callRegistered method ls 0).2 = none ∧
    ((callRegistered method ls 0).1.filterMap notifyIdx =
      List.range ls.length) ∧
    (∀ k l, ls.get? k = some l →
      (∀ u, l.deliver method = Except.ok u →
        FanEvent.notify k none ∈ (callRegistered method ls 0).1) ∧
      (∀ e, l.deliver method = Except.error e →
        FanEvent.notify k (some e) ∈ (callRegistered method ls 0).1 ∧
        FanEvent.excHandled k method e ∈ (callRegistered method ls 0).1)) := by
  have h := callRegistered_spec method ls 0 hhook
  refine ⟨h.1, ?_, ?_⟩
  · rw [h.2.1, List.range_eq_range']
  · intro k l hk
    have h2 := h.2.2 k l hk
    rw [Nat.zero_add] at h2
    exact h2

/-- C9 witness: a single well-behaved listener is notified and no
exception escapes. -/
theorem claim_fanout_witness :
    (callRegistered "reset" [lGood] 0).2 = none :=
  (claim_fanout Nat "reset" [lGood]
    (fun l hl m e => ⟨(), by
      rw [List.mem_singleton.mp hl]
      rfl⟩)).1

/-- C10: for every Minefield, every in-bounds zero-valued cell of the
completed board lies in exactly one element of `openings`, and every
element of `openings` is, as a set, one maximal 8-connected component
of zero cells (the `zeroReach`-class of one of its blanks) together
with all in-bounds neighbours of that component's cells.  Non-zero
border cells may hence appear in an opening, and in two openings at
once. -/
theorem claim_openings_partition (mf : Minefield) :
    (∀ b ∈ allCoords mf.x_size mf.y_size,
      mf.completedBoard b = CellContents.Num 0 →
      ∃ O ∈ mf.openings, b ∈ O ∧
        ∀ O2 ∈ mf.openings, b ∈ O2 → O2 = O) ∧
    (∀ O ∈ mf.openings, ∃ b ∈ allCoords mf.x_size mf.y_size,
      mf.completedBoard b = CellContents.Num 0 ∧
      ∀ c, (c ∈ O ↔ (mf.zeroReach b c ∨
        ∃ d, mf.zeroReach b d ∧ c ∈ getNbrs mf.x_size mf.y_size d false))) := by
  constructor
  · intro b hb hz
    have hz2 : mf.isZero b = true := by simpa [Minefield.isZero] using hz
    obtain ⟨O, hO, hbO⟩ := (mf.openings_spec).2 b hb hz2
    exact ⟨O, hO, hbO,
      fun O2 hO2 hbO2 => openings_unique_at_zero mf hz2 O2 hO2 O hO hbO2 hbO⟩
  · intro O hO
    obtain ⟨b, hbmem, hbz, hbo⟩ := (mf.openings_spec).1 O hO
    refine ⟨b, hbmem, by simpa [Minefield.isZero] using hbz, ?_⟩
    intro c
    rw [isOpeningOf_mem hbo c, openTarget]
    constructor
    · rintro (h | ⟨d, hd, hnb⟩)
      · exact Or.inl ((zReach_iff_zeroReach mf b c).mp h)
      · exact Or.inr ⟨d, (zReach_iff_zeroReach mf b d).mp hd, hnb⟩
    · rintro (h | ⟨d, hd, hnb⟩)
      · exact Or.inl ((zReach_iff_zeroReach mf b c).mpr h)
      · exact Or.inr ⟨d, (zReach_iff_zeroReach mf b d).mpr hd, hnb⟩

/-- C10 witness: in the 3x3 example the zero cell (0,0) lies in exactly
one opening. -/
theorem claim_openings_partition_witness :
    ∃ O ∈ ((mkMinefieldFromGrid 3 3
        (fun c => if c = ((2, 0) : Coord) ∨ c = ((0, 2) : Coord) then 1 else 0)
        1).toOption.getD default).openings,
      ((0, 0) : Coord) ∈ O ∧
      ∀ O2 ∈ ((mkMinefieldFromGrid 3 3
          (fun c => if c = ((2, 0) : Coord) ∨ c = ((0, 2) : Coord) then 1
            else 0) 1).toOption.getD default).openings,
        ((0, 0) : Coord) ∈ O2 → O2 = O :=
  (claim_openings_partition
      ((mkMinefieldFromGrid 3 3
        (fun c => if c = ((2, 0) : Coord) ∨ c = ((0, 2) : Coord) then 1 else 0)
        1).toOption.getD default)).1 (0, 0) (by decide) (by decide)

end Minegauler
